import Mathlib

/-!
# A shallow embedding of the `BigInteger` / `Rational` arithmetic engine

This file embeds the arbitrary-precision signed integer type `BigInteger`
(little-endian base-100 digit groups plus a sign flag) and the exact
fraction type `Rational` from `src/BigInteger/biginteger.h`, and proves
the specified functional-correctness, round-trip and invariant properties.

Modelling conventions:
* the C++ `std::vector<int>` of digit groups is embedded as `List Nat`;
  every value stored between operations keeps its groups in `[0, 100)`,
  and the one routine that produces negative intermediates
  (`abs_subtract_small_from_big`) is embedded over `Int` internally;
* decimal strings (the only strings the code manipulates) are embedded as
  an optional leading minus flag plus the list of decimal digit values;
* the FFT pipeline of `operator*=` (forward transform, point-wise product,
  inverse transform, rounding of the real parts) computes — in exact
  arithmetic — the integer convolution of the two zero-padded coefficient
  sequences; it is embedded as that convolution directly, computed by
  `polyMul`.  Floating-point round-off (the documented `PrecisionLoss`
  limitation) is idealized as exact.
-/

/-- The two-valued sign flag of the engine (`enum class Sign`). -/
inductive Sign : Type
  | plus : Sign
  | minus : Sign
deriving DecidableEq, Repr

/-- `Sign operator*`: equal signs give `plus`, different give `minus`. -/
def Sign.mul : Sign → Sign → Sign
  | Sign.plus, Sign.plus => Sign.plus
  | Sign.minus, Sign.minus => Sign.plus
  | _, _ => Sign.minus

/-- `BigInteger::sgn` maps a native integer to its sign,
zero counting as `plus` (`(0 <= x) - (x < 0)`). -/
def sgn (x : Int) : Sign := if 0 ≤ x then Sign.plus else Sign.minus

/-- The digit-array signed integer: little-endian base-100 digit groups
`a` plus a sign flag (`class BigInteger`, with `base = 100`,
`base_len = 2`). -/
structure BigInteger : Type where
  a : List Nat
  sign : Sign
deriving DecidableEq, Repr

/-- `delete_trailing_zeroes(std::vector<int>&)`: drop most-significant
zero groups while more than one group remains.  The vector's back is the
head of the reversed list, so we strip on the reverse. -/
def dropLeadZeros : List Nat → List Nat
  | [] => []
  | [d] => [d]
  | d :: e :: ds => if d = 0 then dropLeadZeros (e :: ds) else d :: e :: ds

/-- `delete_trailing_zeroes` on the little-endian group list. -/
def dtz (l : List Nat) : List Nat := (dropLeadZeros l.reverse).reverse

/-- The numeric value of a little-endian base-100 group list. -/
def val : List Nat → Nat
  | [] => 0
  | d :: ds => d + 100 * val ds

/-- All groups lie in `[0, 100)`. -/
def DigOK (l : List Nat) : Prop := ∀ d ∈ l, d < 100

/-- Canonical-form invariant I1 for the group list: nonempty, and no
most-significant zero group except for the single group of zero itself. -/
def Trimmed (l : List Nat) : Prop := l ≠ [] ∧ (l.getLast? = some 0 → l = [0])

/-- Invariants I1 and I2 of a `BigInteger` value: groups in range, list
trimmed, and the zero value carries sign `plus`. -/
def Canon (x : BigInteger) : Prop :=
  DigOK x.a ∧ Trimmed x.a ∧ (val x.a = 0 → x.sign = Sign.plus)

instance (x : BigInteger) : Decidable (Canon x) := by
  unfold Canon DigOK Trimmed; infer_instance

/-- The integer denoted by a `BigInteger`. -/
def toInt (x : BigInteger) : Int :=
  (match x.sign with | Sign.plus => 1 | Sign.minus => -1) * (val x.a : Int)

/-- `BigInteger::is_zero`: a single zero group. -/
def isZero (x : BigInteger) : Bool := x.a = [0]

/-- `operator==(const BigInteger&, const BigInteger&)`: equal sign, equal
group count, and equal groups position-wise — i.e. structural equality. -/
def bigEq (x y : BigInteger) : Bool :=
  decide (x.sign = y.sign) && decide (x.a = y.a)

/-- `less_abs`: fewer groups means smaller magnitude; on equal group
counts the most-significant differing group decides. -/
def revLess : List Nat → List Nat → Bool
  | a :: as, b :: bs => if a ≠ b then decide (a < b) else revLess as bs
  | _, _ => false

/-- `BigInteger::less_abs`. -/
def lessAbs (x y : BigInteger) : Bool :=
  if x.a.length ≠ y.a.length then decide (x.a.length < y.a.length)
  else revLess x.a.reverse y.a.reverse

/-- The carry loop of the same-sign branch of `operator+=`, run over the
two group lists resized to a common length; the final carry is pushed as
an extra group (`a.push_back(add)`). -/
def addLoop : List Nat → List Nat → Nat → List Nat
  | d :: ds, e :: es, c =>
      ((d + e + c) % 100) :: addLoop ds es ((d + e + c) / 100)
  | _, _, c => [c]

/-- First pass of `abs_subtract_small_from_big`:
`a[i] -= small[i]; a[i] *= sign_fl;` over the prefix covered by `small`. -/
def subPointwise : List Int → List Int → Int → List Int
  | as, [], _ => as
  | a :: as, s :: ss, sfl => (a - s) * sfl :: subPointwise as ss sfl
  | [], _ :: _, _ => []

/-- Borrow-propagation pass of `abs_subtract_small_from_big`:
`a[i] -= subtract; if (a[i] < 0) { a[i] += base; subtract = 1; }`. -/
def borrowPass : List Int → Int → List Int
  | [], _ => []
  | d :: ds, c =>
      if d - c < 0 then (d - c + 100) :: borrowPass ds 1
      else (d - c) :: borrowPass ds 0

/-- `BigInteger::abs_subtract_small_from_big(small, fl)`: subtract the
smaller magnitude from the bigger one group-wise (`fl` swaps the roles),
propagate borrows, and trim.  The stored groups are nonnegative again at
the end, so the result is read back into `List Nat`. -/
def abs_subtract_small_from_big (x small : BigInteger) (fl : Bool) : List Nat :=
  let lenBig := if fl then small.a.length else x.a.length
  let a0 := (x.a.map (Int.ofNat)).takeD lenBig 0
  let sfl : Int := if fl then -1 else 1
  let a1 := subPointwise a0 (small.a.map (Int.ofNat)) sfl
  let a2 := borrowPass a1 0
  dtz (a2.map Int.toNat)

/-- `BigInteger::operator+=`. -/
def bigAdd (x y : BigInteger) : BigInteger :=
  if x.sign = y.sign then
    let len := max x.a.length y.a.length
    { a := dtz (addLoop (x.a.takeD len 0) (y.a.takeD len 0) 0), sign := x.sign }
  else
    let r := if lessAbs x y then abs_subtract_small_from_big x y true
             else abs_subtract_small_from_big x y false
    let s := if lessAbs x y then y.sign else x.sign
    { a := dtz r, sign := if r = [0] then Sign.plus else s }

/-- `BigInteger::operator-=`: add the sign-negated copy of the operand. -/
def bigSub (x y : BigInteger) : BigInteger :=
  bigAdd x { y with sign := y.sign.mul Sign.minus }

/-- Point-wise sum of two coefficient sequences (shorter one
zero-extended). -/
def addPoly : List Nat → List Nat → List Nat
  | [], l => l
  | l, [] => l
  | a :: as, b :: bs => (a + b) :: addPoly as bs

/-- The integer convolution of two coefficient sequences — the exact
value computed by the FFT / point-wise-product / inverse-FFT pipeline of
`operator*=` before carrying. -/
def polyMul : List Nat → List Nat → List Nat
  | [], _ => []
  | a :: as, b => addPoly (b.map (a * ·)) (0 :: polyMul as b)

/-- The carry-propagation pass of `operator*=`:
`res[i] += add; add = res[i] / base; res[i] %= base;`
(the carry out of the last position is dropped). -/
def carryLoop : List Nat → Nat → List Nat
  | [], _ => []
  | d :: ds, c => ((d + c) % 100) :: carryLoop ds ((d + c) / 100)

/-- The doubling loop of `operator*=` (`n = 1; while (n < m) n <<= 1;`),
computing the least power of two `≥ m`; written with structural fuel
(`m` rounds always suffice) so that it reduces definitionally. -/
def upow2F : Nat → Nat → Nat
  | 0, _ => 1
  | f + 1, m => if m ≤ 1 then 1 else 2 * upow2F f ((m + 1) / 2)

/-- The least power of two `≥ m` (for `m ≥ 1`), as computed by the
padding loop of `operator*=`. -/
def upow2 (m : Nat) : Nat := upow2F m m

/-- `BigInteger::operator*=` (FFT convolution, carries, sign rule,
re-canonicalization). -/
def bigMul (x y : BigInteger) : BigInteger :=
  let n := 2 * upow2 (max x.a.length y.a.length)
  let res := dtz (carryLoop ((polyMul x.a y.a).takeD n 0) 0)
  { a := res,
    sign := if res = [0] then Sign.plus else x.sign.mul y.sign }

/-- The decimal-digit expansion of a group, most significant digit first
(`std::to_string`); structural fuel (`n` rounds always suffice). -/
def natDigitsF : Nat → Nat → List Nat
  | 0, n => [n]
  | f + 1, n => if n < 10 then [n] else natDigitsF f (n / 10) ++ [n % 10]

/-- The decimal-digit expansion of a group (`std::to_string`). -/
def natDigits (n : Nat) : List Nat := natDigitsF n n

/-- `BigInteger::number_to_string`: the decimal expansion of a group,
left-padded with zeros to `base_len = 2` characters.  (Canonical groups
lie in `[0, 100)`; the C++ function is only ever applied to those.) -/
def number_to_digits (g : Nat) : List Nat :=
  let s := natDigits g
  List.replicate (2 - s.length) 0 ++ s

/-- A decimal string: an optional leading minus, then decimal digit
values most significant first. -/
structure DecStr : Type where
  neg : Bool
  digs : List Nat
deriving DecidableEq, Repr

/-- A valid decimal string: nonempty, all characters decimal digits. -/
def ValidDec (s : DecStr) : Prop := s.digs ≠ [] ∧ ∀ d ∈ s.digs, d < 10

/-- `delete_trailing_zeroes(std::string&)`: strip leading zero characters
but never the final character. -/
def stripZeros : List Nat → List Nat
  | [] => []
  | [d] => [d]
  | d :: e :: ds => if d = 0 then stripZeros (e :: ds) else d :: e :: ds

/-- `BigInteger::toString`: concatenate the zero-padded groups, most
significant first, strip leading zeros, and record the sign. -/
def toDec (x : BigInteger) : DecStr :=
  { neg := decide (x.sign = Sign.minus),
    digs := stripZeros (x.a.reverse.flatMap number_to_digits) }

/-- Grouping of the parse constructor: consume the decimal digits from
the least significant end in windows of `base_len = 2`
(`number = s[j-1] * 10 + s[j]`), the final window possibly shorter.
Input is least significant digit first. -/
def groupPairs : List Nat → List Nat
  | [] => []
  | [d] => [d]
  | d0 :: d1 :: ds => (d0 + 10 * d1) :: groupPairs ds

/-- `BigInteger::BigInteger(const std::string&)`. -/
def parse (s : DecStr) : BigInteger :=
  { a := dtz (groupPairs s.digs.reverse),
    sign := if s.neg then Sign.minus else Sign.plus }

/-- `BigInteger::div10`: divide the magnitude by ten
(`cur = x[i] + add * base; x[i] = cur / 10; add = cur % 10;` running from
the most significant group down), then trim. -/
def div10M : List Nat → Nat → List Nat
  | [], _ => []
  | d :: ds, add =>
      ((d + add * 100) / 10) :: div10M ds ((d + add * 100) % 10)

/-- `BigInteger::div10` on a value (the sign is untouched). -/
def div10 (x : BigInteger) : BigInteger :=
  { x with a := dtz ((div10M x.a.reverse 0).reverse) }

/-- The inner trial-subtraction loop of `operator/=`: subtract `sub` from
the running remainder while it still fits, at most nine times; returns
the count (the next quotient digit) and the new remainder. -/
def trialSub : Nat → BigInteger → BigInteger → Nat × BigInteger
  | 0, rem, _ => (0, rem)
  | f + 1, rem, sub =>
      if lessAbs rem sub then (0, rem)
      else
        let p := trialSub f (bigSub rem sub) sub
        (p.1 + 1, p.2)

/-- The outer digit loop of `operator/=` (`degree` counting down to 0):
one quotient digit per decimal position, dividing the shifted divisor by
ten between positions. -/
def divLoop : Nat → BigInteger → BigInteger → List Nat
  | deg, rem, sub =>
    let p := trialSub 9 rem sub
    match deg with
    | 0 => [p.1]
    | d + 1 => p.1 :: divLoop d p.2 (div10 sub)

/-- `BigInteger::operator/=`: fast path when the divisor has more groups;
otherwise long division against the decimal-string-shifted divisor,
re-parsing the collected quotient digits, with the truncating sign rule
and zero collapse. -/
def bigDiv (x y : BigInteger) : BigInteger :=
  if x.a.length < y.a.length then { a := [0], sign := Sign.plus }
  else
    let divisor := toDec { y with sign := Sign.plus }
    let resSign := x.sign.mul y.sign
    let degree := (x.a.length - y.a.length + 1) * 2
    let sub := parse { neg := false, digs := divisor.digs ++ List.replicate degree 0 }
    let ds := divLoop degree { x with sign := Sign.plus } sub
    let q := parse { neg := decide (resSign = Sign.minus), digs := ds }
    { q with sign := if q.a = [0] then Sign.plus else q.sign }

/-- `BigInteger::operator%=`: `a - (a / x) * x`, with zero collapse. -/
def bigMod (x y : BigInteger) : BigInteger :=
  let r := bigSub x (bigMul (bigDiv x y) y)
  { r with sign := if r.a = [0] then Sign.plus else r.sign }

/-- `BigInteger::operator-` (unary): flip the sign unless zero. -/
def bigNeg (x : BigInteger) : BigInteger :=
  if x.a = [0] then x else { x with sign := x.sign.mul Sign.minus }

/-- The base-100 grouping do-while loop of `BigInteger(int)`;
structural fuel (`n` rounds always suffice). -/
def natGroupsF : Nat → Nat → List Nat
  | 0, n => [n]
  | f + 1, n => if n < 100 then [n] else n % 100 :: natGroupsF f (n / 100)

/-- The base-100 grouping do-while loop of `BigInteger(int)`. -/
def natGroups (n : Nat) : List Nat := natGroupsF n n

/-- `BigInteger::BigInteger(int)`: take the absolute value and split it
into base-100 groups; the sign is `sgn` of the argument. -/
def fromInt (x : Int) : BigInteger :=
  { a := natGroups x.natAbs, sign := sgn x }

/-- `BigInteger::operator++` / the `+= 1` it performs. -/
def bigInc (x : BigInteger) : BigInteger := bigAdd x (fromInt 1)

/-- `BigInteger::operator--` / the `-= 1` it performs. -/
def bigDec (x : BigInteger) : BigInteger := bigSub x (fromInt 1)

/-- The `while (b) { a %= b; std::swap(a, b); }` loop of the free
function `gcd`, with explicit fuel (the magnitude of `b` strictly
decreases on canonical values, so `val b.a + 1` rounds suffice). -/
def gcdFuel : Nat → BigInteger → BigInteger → BigInteger
  | 0, x, _ => x
  | f + 1, x, y => if y.a = [0] then x else gcdFuel f y (bigMod x y)

/-- `gcd(BigInteger, BigInteger)`. -/
def bigGcd (x y : BigInteger) : BigInteger := gcdFuel (val y.a + 1) x y

/-- The exact fraction type (`class Rational`): numerator and denominator
magnitudes plus the fraction's own sign. -/
structure Rational : Type where
  numerator : BigInteger
  denominator : BigInteger
  sign : Sign
deriving DecidableEq, Repr

/-- `Rational::normalize`: fold the numerator's sign into the fraction's
sign, force the numerator positive, collapse the sign on zero, and divide
numerator and denominator by their `gcd` unless it is one. -/
def Rational.normalize (r : Rational) : Rational :=
  let s0 := r.sign.mul r.numerator.sign
  let num : BigInteger := { r.numerator with sign := Sign.plus }
  let s := if num.a = [0] then Sign.plus else s0
  let g := bigGcd num r.denominator
  if g.a = [1] then { numerator := num, denominator := r.denominator, sign := s }
  else { numerator := bigDiv num g, denominator := bigDiv r.denominator g, sign := s }

/-- `Rational::Rational()`. -/
def ratZero : Rational :=
  { numerator := fromInt 0, denominator := fromInt 1, sign := Sign.plus }

/-- `Rational::Rational(const BigInteger&)` (and, through `fromInt`, the
`Rational(int)` constructor): denominator one, the argument's sign moved
onto the fraction, numerator forced positive. -/
def ratOfBig (x : BigInteger) : Rational :=
  { numerator := { x with sign := Sign.plus }, denominator := fromInt 1, sign := x.sign }

/-- `Rational::operator*=`. -/
def ratMul (r x : Rational) : Rational :=
  Rational.normalize
    { numerator := bigMul r.numerator x.numerator,
      denominator := bigMul r.denominator x.denominator,
      sign := r.sign.mul x.sign }

/-- `Rational::operator+=`: fold the running sign into the numerator,
cross-multiply, add or subtract according to the operand's sign, multiply
the denominators, normalize. -/
def ratAdd (r x : Rational) : Rational :=
  let num0 := { r.numerator with sign := r.sign }
  let num1 := bigMul num0 x.denominator
  let num2 := if x.sign = Sign.plus then bigAdd num1 (bigMul x.numerator r.denominator)
              else bigSub num1 (bigMul x.numerator r.denominator)
  Rational.normalize
    { numerator := num2, denominator := bigMul r.denominator x.denominator,
      sign := Sign.plus }

/-- `Rational::operator-=`. -/
def ratSub (r x : Rational) : Rational :=
  let num0 := { r.numerator with sign := r.sign }
  let num1 := bigMul num0 x.denominator
  let num2 := if x.sign = Sign.plus then bigSub num1 (bigMul x.numerator r.denominator)
              else bigAdd num1 (bigMul x.numerator r.denominator)
  Rational.normalize
    { numerator := num2, denominator := bigMul r.denominator x.denominator,
      sign := Sign.plus }

/-- `Rational::operator/=`: multiply by the reciprocal. -/
def ratDiv (r x : Rational) : Rational :=
  Rational.normalize
    { numerator := bigMul r.numerator x.denominator,
      denominator := bigMul r.denominator x.numerator,
      sign := r.sign.mul x.sign }

/-- `Rational::operator-` (unary): flip the sign and normalize. -/
def ratNeg (r : Rational) : Rational :=
  Rational.normalize { r with sign := r.sign.mul Sign.minus }

/-- Rendering a decimal string to characters, as the C++ strings appear
to a caller: an optional `'-'`, then digit characters. -/
def DecStr.render (s : DecStr) : List Char :=
  (if s.neg then ['-'] else []) ++ s.digs.map Nat.digitChar

/-- `Rational::asDecimal(precision)`: scale the numerator by
`10^precision` (a multiplication by the parsed string `"1" ++ zeros`),
divide by the denominator, and splice the digit string around the decimal
point.  (`decimal.size() - precision` underflows `size_t` in the source
when the digit string is shorter than the precision; the clamp to zero
embeds the `std::max(0, ...)` intent.) -/
def asDecimal (r : Rational) (precision : Nat) : List Char :=
  let scaled := bigMul r.numerator (parse { neg := false, digs := 1 :: List.replicate precision 0 })
  let result := bigDiv scaled r.denominator
  let decimal := (toDec result).render
  let pos := decimal.length - precision
  (if r.sign = Sign.minus then ['-'] else [])
    ++ (if pos = 0 then ['0'] else [])
    ++ decimal.take pos ++ ['.']
    ++ List.replicate (precision - (decimal.length - pos)) '0'
    ++ (decimal.drop pos).take precision

/-- Invariant I3 of a `Rational`, as the specification states it: the
numerator's sign is `plus`, the denominator is positive (sign `plus`,
nonzero magnitude), numerator and denominator are coprime — the zero
value being represented as `0 / 1` — and the fraction's sign collapses to
`plus` on zero. -/
def I3 (r : Rational) : Prop :=
  r.numerator.sign = Sign.plus ∧ r.denominator.sign = Sign.plus ∧
  val r.denominator.a ≠ 0 ∧
  Nat.gcd (val r.numerator.a) (val r.denominator.a) = 1 ∧
  (val r.numerator.a = 0 → val r.denominator.a = 1 ∧ r.sign = Sign.plus)

instance (r : Rational) : Decidable (I3 r) := by
  unfold I3; infer_instance

/-- The full well-formedness of a `Rational` state: I3 together with
canonical `BigInteger` parts. -/
def RatOK (r : Rational) : Prop :=
  Canon r.numerator ∧ Canon r.denominator ∧ I3 r

instance (r : Rational) : Decidable (RatOK r) := by
  unfold RatOK; infer_instance

/-- Most-significant-first value of a base-100 group list (the reverse
reading used by the comparison and division loops). -/
def valM : List Nat → Nat
  | [] => 0
  | d :: ds => d * 100 ^ ds.length + valM ds

/-- Value of a group list over `Int` (used for the subtraction routine's
intermediate states). -/
def ival : List Int → Int
  | [] => 0
  | d :: ds => d + 100 * ival ds

/-- Most-significant-first value of a decimal digit list. -/
def dvalM : List Nat → Nat
  | [] => 0
  | d :: ds => d * 10 ^ ds.length + dvalM ds

/-- Least-significant-first value of a decimal digit list. -/
def dval : List Nat → Nat
  | [] => 0
  | d :: ds => d + 10 * dval ds

/-! ### Basic value and canonical-form lemmas -/

theorem val_lt (l : List Nat) (h : DigOK l) : val l < 100 ^ l.length := by
  induction l with
  | nil => simp [val]
  | cons d ds ih =>
      have hd : d < 100 := h d (by simp)
      have hds : val ds < 100 ^ ds.length := ih (fun e he => h e (by simp [he]))
      simp only [val, List.length_cons, pow_succ]
      omega

theorem valM_lt (l : List Nat) (h : DigOK l) : valM l < 100 ^ l.length := by
  induction l with
  | nil => simp [valM]
  | cons d ds ih =>
      have hd : d < 100 := h d (by simp)
      have hds : valM ds < 100 ^ ds.length := ih (fun e he => h e (by simp [he]))
      have hpos : 0 < 100 ^ ds.length := Nat.pos_pow_of_pos _ (by omega)
      simp only [valM, List.length_cons, pow_succ]
      nlinarith

theorem valM_append (u v : List Nat) :
    valM (u ++ v) = valM u * 100 ^ v.length + valM v := by
  induction u with
  | nil => simp [valM]
  | cons d ds ih =>
      rw [List.cons_append]
      show d * 100 ^ (ds ++ v).length + valM (ds ++ v) = _
      rw [ih, List.length_append, pow_add]
      show _ = (d * 100 ^ ds.length + valM ds) * 100 ^ v.length + valM v
      ring

theorem val_append (u v : List Nat) :
    val (u ++ v) = val u + 100 ^ u.length * val v := by
  induction u with
  | nil => simp [val]
  | cons d ds ih =>
      rw [List.cons_append]
      show d + 100 * val (ds ++ v) = d + 100 * val ds + 100 ^ (d :: ds).length * val v
      rw [ih, List.length_cons, pow_succ]
      ring

theorem val_reverse (l : List Nat) : val l.reverse = valM l := by
  induction l with
  | nil => rfl
  | cons d ds ih =>
      rw [List.reverse_cons, val_append, ih]
      show valM ds + 100 ^ ds.reverse.length * (d + 100 * 0) = d * 100 ^ ds.length + valM ds
      rw [List.length_reverse]
      ring

theorem valM_eq_val_reverse (l : List Nat) : valM l = val l.reverse :=
  (val_reverse l).symm

theorem val_eq_zero_iff (l : List Nat) : val l = 0 ↔ ∀ d ∈ l, d = 0 := by
  induction l with
  | nil => simp [val]
  | cons d ds ih =>
      simp only [val, List.mem_cons]
      constructor
      · intro h
        have hd : d = 0 := by omega
        have hds : val ds = 0 := by omega
        intro e he
        rcases he with rfl | he
        · exact hd
        · exact (ih.mp hds) e he
      · intro h
        have hd : d = 0 := h d (Or.inl rfl)
        have hds : val ds = 0 := ih.mpr (fun e he => h e (Or.inr he))
        omega

theorem getLast?_all_zero (l : List Nat) (hne : l ≠ []) (h : ∀ d ∈ l, d = 0) :
    l.getLast? = some 0 := by
  induction l with
  | nil => exact absurd rfl hne
  | cons d ds ih =>
      cases ds with
      | nil =>
          have : d = 0 := h d (by simp)
          simp [this]
      | cons e es =>
          rw [List.getLast?_cons_cons]
          exact ih (by simp) (fun x hx => h x (by simp [hx]))

theorem trimmed_val_zero (l : List Nat) (ht : Trimmed l) (hv : val l = 0) : l = [0] :=
  ht.2 (getLast?_all_zero l ht.1 ((val_eq_zero_iff l).mp hv))

theorem val_ne_zero_of_trimmed (l : List Nat) (ht : Trimmed l) (hne : l ≠ [0]) :
    val l ≠ 0 :=
  fun hv => hne (trimmed_val_zero l ht hv)

theorem getLast?_cons_ne_nil (d : Nat) (ds : List Nat) (hds : ds ≠ []) :
    (d :: ds).getLast? = ds.getLast? := by
  cases ds with
  | nil => exact absurd rfl hds
  | cons e es => exact List.getLast?_cons_cons

theorem trimmed_cons_of_tail (d : Nat) (ds : List Nat) (hds : ds ≠ [])
    (ht : Trimmed (d :: ds)) : Trimmed ds := by
  refine ⟨hds, fun h0 => ?_⟩
  have hlast : (d :: ds).getLast? = some 0 := by
    rw [getLast?_cons_ne_nil d ds hds]
    exact h0
  have := ht.2 hlast
  simp at this
  exact absurd this.2 hds

theorem val_lower (l : List Nat) (ht : Trimmed l) (hne : l ≠ [0]) :
    100 ^ (l.length - 1) ≤ val l := by
  induction l with
  | nil => exact absurd rfl ht.1
  | cons d ds ih =>
      cases ds with
      | nil =>
          have : d ≠ 0 := fun h => hne (by simp [h])
          simpa [val] using Nat.one_le_iff_ne_zero.mpr this
      | cons e es =>
          have htail : Trimmed (e :: es) := trimmed_cons_of_tail d (e :: es) (by simp) ht
          have htne : (e :: es) ≠ [0] := by
            intro h
            have hlast : (d :: e :: es).getLast? = some 0 := by
              rw [getLast?_cons_ne_nil d (e :: es) (by simp), h]
              rfl
            have := ht.2 hlast
            simp at this
          have := ih htail htne
          simp only [val, List.length_cons] at *
          have hp : 100 ^ (es.length + 1 + 1 - 1) = 100 * 100 ^ (es.length + 1 - 1) := by
            simp [pow_succ]
            ring
          rw [hp]
          omega

/-! ### Trimming -/

theorem dropLeadZeros_valM (m : List Nat) : valM (dropLeadZeros m) = valM m := by
  induction m using dropLeadZeros.induct with
  | case1 => rfl
  | case2 d => rfl
  | case3 d ds ih => simpa [valM] using ih
  | case4 d e ds hne => rw [dropLeadZeros, if_neg hne]

theorem dropLeadZeros_ne_nil (m : List Nat) (h : m ≠ []) : dropLeadZeros m ≠ [] := by
  induction m using dropLeadZeros.induct with
  | case1 => exact absurd rfl h
  | case2 d => simp [dropLeadZeros]
  | case3 d ds ih => simpa using ih (by simp)
  | case4 d e ds hne =>
      rw [dropLeadZeros, if_neg hne]
      simp

theorem dropLeadZeros_head (m : List Nat)
    (h : (dropLeadZeros m).head? = some 0) : dropLeadZeros m = [0] := by
  induction m using dropLeadZeros.induct with
  | case1 => simp [dropLeadZeros] at h
  | case2 d =>
      simp [dropLeadZeros] at h ⊢
      exact h
  | case3 d ds ih =>
      simp only [dropLeadZeros, if_pos rfl] at h ⊢
      exact ih h
  | case4 d e ds hne =>
      rw [dropLeadZeros, if_neg hne] at h ⊢
      simp at h
      exact absurd h hne

theorem dropLeadZeros_mem (m : List Nat) (d : Nat) (h : d ∈ dropLeadZeros m) :
    d ∈ m := by
  induction m using dropLeadZeros.induct with
  | case1 => simpa [dropLeadZeros] using h
  | case2 e => simpa [dropLeadZeros] using h
  | case3 e ds ih =>
      simp only [dropLeadZeros, if_pos rfl] at h
      exact List.mem_cons_of_mem 0 (ih h)
  | case4 e f ds hne =>
      rw [dropLeadZeros, if_neg hne] at h
      exact h

theorem val_dtz (l : List Nat) : val (dtz l) = val l := by
  rw [dtz, val_reverse, dropLeadZeros_valM, valM_eq_val_reverse, List.reverse_reverse]

theorem dtz_ne_nil (l : List Nat) (h : l ≠ []) : dtz l ≠ [] := by
  rw [dtz]
  simp only [ne_eq, List.reverse_eq_nil_iff]
  exact dropLeadZeros_ne_nil l.reverse (by simpa using h)

theorem trimmed_dtz (l : List Nat) (h : l ≠ []) : Trimmed (dtz l) := by
  refine ⟨dtz_ne_nil l h, fun h0 => ?_⟩
  rw [dtz] at h0 ⊢
  rw [List.getLast?_reverse] at h0
  rw [dropLeadZeros_head l.reverse h0]
  rfl

theorem digok_dtz (l : List Nat) (h : DigOK l) : DigOK (dtz l) := by
  intro d hd
  rw [dtz, List.mem_reverse] at hd
  exact h d (by simpa using dropLeadZeros_mem l.reverse d hd)

theorem val_inj (l l' : List Nat) (h1 : DigOK l) (t1 : Trimmed l)
    (h2 : DigOK l') (t2 : Trimmed l') (hv : val l = val l') : l = l' := by
  induction l generalizing l' with
  | nil => exact absurd rfl t1.1
  | cons d ds ih =>
      cases l' with
      | nil => exact absurd rfl t2.1
      | cons e es =>
          simp only [val] at hv
          have hd : d < 100 := h1 d (by simp)
          have he : e < 100 := h2 e (by simp)
          have hde : d = e := by omega
          have hval : val ds = val es := by omega
          subst hde
          cases ds with
          | nil =>
              cases es with
              | nil => rfl
              | cons f fs =>
                  exfalso
                  have hz : val (f :: fs) = 0 := by simpa [val] using hval.symm
                  have : (d :: f :: fs).getLast? = some 0 := by
                    rw [getLast?_cons_ne_nil d (f :: fs) (by simp)]
                    exact getLast?_all_zero _ (by simp) ((val_eq_zero_iff _).mp hz)
                  have := t2.2 this
                  simp at this
          | cons f fs =>
              cases es with
              | nil =>
                  exfalso
                  have hz : val (f :: fs) = 0 := by simpa [val] using hval
                  have : (d :: f :: fs).getLast? = some 0 := by
                    rw [getLast?_cons_ne_nil d (f :: fs) (by simp)]
                    exact getLast?_all_zero _ (by simp) ((val_eq_zero_iff _).mp hz)
                  have := t1.2 this
                  simp at this
              | cons g gs =>
                  have htail1 : Trimmed (f :: fs) := trimmed_cons_of_tail d _ (by simp) t1
                  have htail2 : Trimmed (g :: gs) := trimmed_cons_of_tail d _ (by simp) t2
                  have := ih (g :: gs) (fun x hx => h1 x (List.mem_cons_of_mem d hx))
                    htail1 (fun x hx => h2 x (List.mem_cons_of_mem d hx)) htail2 hval
                  rw [this]

theorem sign_plus_of_nonneg (x : BigInteger) (hc : Canon x) (h : 0 ≤ toInt x) :
    x.sign = Sign.plus := by
  by_cases hz : val x.a = 0
  · exact hc.2.2 hz
  · rcases hx : x.sign with _ | _
    · rfl
    · exfalso
      rw [toInt, hx] at h
      simp at h
      omega

theorem toInt_natAbs (x : BigInteger) : (toInt x).natAbs = val x.a := by
  rw [toInt]
  rcases x.sign with _ | _ <;> simp

theorem toInt_inj (x y : BigInteger) (hx : Canon x) (hy : Canon y)
    (h : toInt x = toInt y) : x = y := by
  have hv : val x.a = val y.a := by
    rw [← toInt_natAbs, ← toInt_natAbs, h]
  have ha : x.a = y.a := val_inj _ _ hx.1 hx.2.1 hy.1 hy.2.1 hv
  have hs : x.sign = y.sign := by
    by_cases hz : val x.a = 0
    · rw [hx.2.2 hz, hy.2.2 (hv ▸ hz)]
    · rcases hsx : x.sign with _ | _ <;> rcases hsy : y.sign with _ | _
      · rfl
      · exfalso
        rw [toInt, toInt, hsx, hsy, hv] at h
        simp at h
        omega
      · exfalso
        rw [toInt, toInt, hsx, hsy, hv] at h
        simp at h
        omega
      · rfl
  cases x; cases y
  simp_all

theorem bigEq_iff (x y : BigInteger) : bigEq x y = true ↔ x = y := by
  cases x; cases y
  simp only [bigEq, Bool.and_eq_true, decide_eq_true_eq, BigInteger.mk.injEq]
  tauto

/-! ### Magnitude comparison -/

theorem revLess_iff (u v : List Nat) (hlen : u.length = v.length)
    (hu : DigOK u) (hv : DigOK v) : (revLess u v = true ↔ valM u < valM v) := by
  induction u generalizing v with
  | nil =>
      cases v with
      | nil => simp [revLess, valM]
      | cons b bs => simp at hlen
  | cons a as ih =>
      cases v with
      | nil => simp at hlen
      | cons b bs =>
          have hk : as.length = bs.length := by simpa using hlen
          have ha : a < 100 := hu a (by simp)
          have hb : b < 100 := hv b (by simp)
          have has : valM as < 100 ^ as.length := valM_lt as (fun e he => hu e (by simp [he]))
          have hbs : valM bs < 100 ^ bs.length := valM_lt bs (fun e he => hv e (by simp [he]))
          rw [revLess]
          by_cases hab : a = b
          · subst hab
            rw [if_neg (by simp)]
            rw [ih bs hk (fun e he => hu e (by simp [he])) (fun e he => hv e (by simp [he]))]
            simp only [valM, hk]
            omega
          · rw [if_pos hab]
            simp only [valM, decide_eq_true_eq, hk]
            constructor
            · intro hlt
              have has2 : valM as < 100 ^ bs.length := hk ▸ has
              calc a * 100 ^ bs.length + valM as
                  < a * 100 ^ bs.length + 100 ^ bs.length := by omega
                _ = (a + 1) * 100 ^ bs.length := by ring
                _ ≤ b * 100 ^ bs.length := Nat.mul_le_mul_right _ (by omega)
                _ ≤ b * 100 ^ bs.length + valM bs := Nat.le_add_right _ _
            · intro hlt
              by_contra hge
              have hba : b < a := by omega
              have : b * 100 ^ bs.length + valM bs < a * 100 ^ bs.length + valM as := by
                calc b * 100 ^ bs.length + valM bs
                    < b * 100 ^ bs.length + 100 ^ bs.length := by
                      have := hk ▸ hbs
                      omega
                  _ = (b + 1) * 100 ^ bs.length := by ring
                  _ ≤ a * 100 ^ bs.length := Nat.mul_le_mul_right _ (by omega)
                  _ ≤ a * 100 ^ bs.length + valM as := Nat.le_add_right _ _
              omega

theorem lessAbs_iff (x y : BigInteger) (hx : DigOK x.a) (tx : Trimmed x.a)
    (hy : DigOK y.a) (ty : Trimmed y.a) :
    (lessAbs x y = true ↔ val x.a < val y.a) := by
  rw [lessAbs]
  by_cases hl : x.a.length = y.a.length
  · rw [if_neg (by simpa using hl)]
    have := revLess_iff x.a.reverse y.a.reverse (by simpa using hl)
      (by intro d hd; exact hx d (by simpa using hd))
      (by intro d hd; exact hy d (by simpa using hd))
    rw [this, valM_eq_val_reverse x.a.reverse, valM_eq_val_reverse y.a.reverse,
      List.reverse_reverse, List.reverse_reverse]
  · rw [if_pos hl]
    simp only [decide_eq_true_eq]
    rcases Nat.lt_or_ge x.a.length y.a.length with hlt | hge
    · simp only [hlt, true_iff]
      have hy0 : y.a ≠ [0] := by
        intro h
        rw [h] at hlt
        simp at hlt
        have := tx.1
        cases hxa : x.a with
        | nil => exact this hxa
        | cons d ds => rw [hxa] at hlt; simp at hlt
      calc val x.a < 100 ^ x.a.length := val_lt x.a hx
        _ ≤ 100 ^ (y.a.length - 1) := Nat.pow_le_pow_right (by omega) (by omega)
        _ ≤ val y.a := val_lower y.a ty hy0
    · have hgt : y.a.length < x.a.length := by omega
      simp only [Nat.lt_asymm hgt, false_iff, not_lt]
      have hx0 : x.a ≠ [0] := by
        intro h
        rw [h] at hgt
        simp at hgt
        have := ty.1
        cases hya : y.a with
        | nil => exact this hya
        | cons d ds => rw [hya] at hgt; simp at hgt
      refine le_of_lt ?_
      calc val y.a < 100 ^ y.a.length := val_lt y.a hy
        _ ≤ 100 ^ (x.a.length - 1) := Nat.pow_le_pow_right (by omega) (by omega)
        _ ≤ val x.a := val_lower x.a tx hx0

/-! ### Resizing and the addition carry loop -/

theorem takeD_eq_append {α : Type} (dflt : α) (l : List α) (n : Nat)
    (h : l.length ≤ n) :
    l.takeD n dflt = l ++ List.replicate (n - l.length) dflt := by
  induction l generalizing n with
  | nil => simp [List.takeD_nil]
  | cons d ds ih =>
      cases n with
      | zero => simp at h
      | succ m =>
          have : ds.length ≤ m := by simpa using h
          simp [List.takeD, ih m this]

theorem val_replicate_zero (k : Nat) : val (List.replicate k 0) = 0 := by
  induction k with
  | zero => rfl
  | succ m ih => simp [List.replicate, val, ih]

theorem val_pad (l : List Nat) (n : Nat) (h : l.length ≤ n) :
    val (l.takeD n 0) = val l := by
  rw [takeD_eq_append 0 l n h, val_append, val_replicate_zero]
  ring

theorem digok_pad (l : List Nat) (n : Nat) (h : l.length ≤ n) (hd : DigOK l) :
    DigOK (l.takeD n 0) := by
  rw [takeD_eq_append 0 l n h]
  intro d hdm
  rcases List.mem_append.mp hdm with hm | hm
  · exact hd d hm
  · have := List.eq_of_mem_replicate hm
    omega

theorem addLoop_spec (u : List Nat) : ∀ (v : List Nat) (c : Nat),
    u.length = v.length → DigOK u → DigOK v → c ≤ 1 →
    val (addLoop u v c) = val u + val v + c ∧ DigOK (addLoop u v c) ∧
    addLoop u v c ≠ [] := by
  induction u with
  | nil =>
      intro v c hlen hu hv hc
      have : v = [] := by
        cases v with
        | nil => rfl
        | cons e es => simp at hlen
      subst this
      refine ⟨by simp [addLoop, val], ?_, by simp [addLoop]⟩
      intro d hd
      simp [addLoop] at hd
      omega
  | cons d ds ih =>
      intro v c hlen hu hv hc
      cases v with
      | nil => simp at hlen
      | cons e es =>
          have hlen2 : ds.length = es.length := by simpa using hlen
          have hd100 : d < 100 := hu d (by simp)
          have he100 : e < 100 := hv e (by simp)
          have hrec := ih es ((d + e + c) / 100) hlen2
            (fun z hz => hu z (by simp [hz])) (fun z hz => hv z (by simp [hz]))
            (by omega)
          rw [addLoop]
          refine ⟨?_, ?_, by simp⟩
          · simp only [val, hrec.1]
            omega
          · intro z hz
            rcases List.mem_cons.mp hz with rfl | hz2
            · exact Nat.mod_lt _ (by omega)
            · exact hrec.2.1 z hz2

/-! ### The magnitude subtraction routine -/

theorem ival_map_ofNat (l : List Nat) : ival (l.map Int.ofNat) = (val l : Int) := by
  induction l with
  | nil => simp [ival, val]
  | cons d ds ih =>
      simp only [List.map_cons, ival, ih, val]
      push_cast
      ring_nf
      rw [Int.ofNat_eq_natCast]
      ring

theorem ival_map_toNat (l : List Int) (h : ∀ d ∈ l, 0 ≤ d) :
    (val (l.map Int.toNat) : Int) = ival l := by
  induction l with
  | nil => simp [ival, val]
  | cons d ds ih =>
      simp only [List.map_cons, val, ival]
      push_cast
      rw [Int.toNat_of_nonneg (h d (by simp)), ih (fun z hz => h z (by simp [hz]))]

theorem ival_nonneg (l : List Int) (h : ∀ d ∈ l, 0 ≤ d) : 0 ≤ ival l := by
  induction l with
  | nil => simp [ival]
  | cons d ds ih =>
      have := ih (fun z hz => h z (by simp [hz]))
      have := h d (by simp)
      simp only [ival]
      omega

theorem ival_lt (l : List Int) (h : ∀ d ∈ l, 0 ≤ d ∧ d < 100) :
    ival l < 100 ^ l.length := by
  induction l with
  | nil => simp [ival]
  | cons d ds ih =>
      have hd := h d (by simp)
      have hds := ih (fun z hz => h z (by simp [hz]))
      have hnn := ival_nonneg ds (fun z hz => (h z (by simp [hz])).1)
      simp only [ival, List.length_cons, pow_succ]
      nlinarith

theorem subPointwise_one (a s : List Int) (h : s.length ≤ a.length) :
    ival (subPointwise a s 1) = ival a - ival s := by
  induction a generalizing s with
  | nil =>
      cases s with
      | nil => simp [subPointwise, ival]
      | cons e es => simp at h
  | cons d ds ih =>
      cases s with
      | nil => simp [subPointwise, ival]
      | cons e es =>
          rw [subPointwise]
          simp only [ival, ih es (by simpa using h)]
          ring

theorem subPointwise_negone (a s : List Int) (h : a.length = s.length) :
    ival (subPointwise a s (-1)) = ival s - ival a := by
  induction a generalizing s with
  | nil =>
      cases s with
      | nil => simp [subPointwise, ival]
      | cons e es => simp at h
  | cons d ds ih =>
      cases s with
      | nil => simp at h
      | cons e es =>
          rw [subPointwise]
          simp only [ival, ih es (by simpa using h)]
          ring

theorem subPointwise_mem (a s : List Int) (sfl : Int)
    (hsfl : sfl = 1 ∨ sfl = -1)
    (ha : ∀ d ∈ a, 0 ≤ d ∧ d < 100) (hs : ∀ d ∈ s, 0 ≤ d ∧ d < 100) :
    ∀ d ∈ subPointwise a s sfl, -100 < d ∧ d < 100 := by
  induction a generalizing s with
  | nil =>
      cases s with
      | nil => simp [subPointwise]
      | cons e es => simp [subPointwise]
  | cons d ds ih =>
      cases s with
      | nil =>
          intro z hz
          rw [subPointwise] at hz
          have := ha z hz
          omega
      | cons e es =>
          intro z hz
          rw [subPointwise] at hz
          rcases List.mem_cons.mp hz with rfl | hz2
          · have h1 := ha d (by simp)
            have h2 := hs e (by simp)
            rcases hsfl with rfl | rfl <;> constructor <;> nlinarith
          · exact ih es (fun w hw => ha w (by simp [hw]))
              (fun w hw => hs w (by simp [hw])) z hz2

theorem subPointwise_length (a s : List Int) (sfl : Int) (h : s.length ≤ a.length) :
    (subPointwise a s sfl).length = a.length := by
  induction a generalizing s with
  | nil =>
      cases s with
      | nil => rfl
      | cons e es => simp at h
  | cons d ds ih =>
      cases s with
      | nil => rfl
      | cons e es =>
          rw [subPointwise]
          simpa using ih es (by simpa using h)

theorem borrowPass_spec (l : List Int) : ∀ c : Int, (c = 0 ∨ c = 1) →
    (∀ d ∈ l, -100 < d ∧ d < 100) →
    ∃ b : Int, (b = 0 ∨ b = 1) ∧
      ival (borrowPass l c) = ival l - c + b * 100 ^ l.length ∧
      (∀ d ∈ borrowPass l c, 0 ≤ d ∧ d < 100) ∧
      (borrowPass l c).length = l.length := by
  induction l with
  | nil =>
      intro c hc _
      exact ⟨c, hc, by simp [borrowPass, ival], by simp [borrowPass], by simp [borrowPass]⟩
  | cons d ds ih =>
      intro c hc hmem
      have hd := hmem d (by simp)
      rw [borrowPass]
      by_cases hneg : d - c < 0
      · rw [if_pos hneg]
        obtain ⟨b, hb, hval, hm, hlen⟩ := ih 1 (by omega)
          (fun z hz => hmem z (by simp [hz]))
        refine ⟨b, hb, ?_, ?_, by simpa using hlen⟩
        · simp only [ival, hval, List.length_cons, hlen, pow_succ]
          ring
        · intro z hz
          rcases List.mem_cons.mp hz with rfl | hz2
          · omega
          · exact hm z hz2
      · rw [if_neg hneg]
        obtain ⟨b, hb, hval, hm, hlen⟩ := ih 0 (by omega)
          (fun z hz => hmem z (by simp [hz]))
        refine ⟨b, hb, ?_, ?_, by simpa using hlen⟩
        · simp only [ival, hval, List.length_cons, hlen, pow_succ]
          ring
        · intro z hz
          rcases List.mem_cons.mp hz with rfl | hz2
          · omega
          · exact hm z hz2

theorem ival_append (u v : List Int) :
    ival (u ++ v) = ival u + 100 ^ u.length * ival v := by
  induction u with
  | nil => simp [ival]
  | cons d ds ih =>
      rw [List.cons_append]
      show d + 100 * ival (ds ++ v) = d + 100 * ival ds + 100 ^ (d :: ds).length * ival v
      rw [ih, List.length_cons, pow_succ]
      ring

theorem ival_replicate_zero (k : Nat) : ival (List.replicate k 0) = 0 := by
  induction k with
  | zero => rfl
  | succ m ih => simp [List.replicate, ival, ih]

theorem mem_map_ofNat (l : List Nat) (h : DigOK l) :
    ∀ d ∈ l.map Int.ofNat, 0 ≤ d ∧ d < 100 := by
  intro d hd
  rcases List.mem_map.mp hd with ⟨z, hz, rfl⟩
  have := h z hz
  constructor
  · exact Int.ofNat_nonneg z
  · rw [Int.ofNat_eq_natCast]
    exact_mod_cast this

theorem absSub_spec_false (x y : BigInteger) (hx : DigOK x.a) (hy : DigOK y.a)
    (hxne : x.a ≠ []) (hlen : y.a.length ≤ x.a.length) (hv : val y.a ≤ val x.a) :
    val (abs_subtract_small_from_big x y false) = val x.a - val y.a ∧
    DigOK (abs_subtract_small_from_big x y false) ∧
    Trimmed (abs_subtract_small_from_big x y false) := by
  have hres : abs_subtract_small_from_big x y false =
      dtz (((borrowPass (subPointwise ((x.a.map Int.ofNat).takeD x.a.length 0)
        (y.a.map Int.ofNat) 1) 0)).map Int.toNat) := by
    simp [abs_subtract_small_from_big]
  have hpad : (x.a.map Int.ofNat).takeD x.a.length 0 = x.a.map Int.ofNat := by
    rw [takeD_eq_append 0 _ _ (by simp)]
    simp
  rw [hres, hpad]
  set a1 := subPointwise (x.a.map Int.ofNat) (y.a.map Int.ofNat) 1 with ha1
  have hlen1 : a1.length = x.a.length := by
    rw [ha1, subPointwise_length _ _ _ (by simpa using hlen)]
    simp
  have hival1 : ival a1 = (val x.a : Int) - (val y.a : Int) := by
    rw [ha1, subPointwise_one _ _ (by simpa using hlen), ival_map_ofNat, ival_map_ofNat]
  have hmem1 : ∀ d ∈ a1, -100 < d ∧ d < 100 := by
    rw [ha1]
    exact subPointwise_mem _ _ _ (Or.inl rfl) (mem_map_ofNat _ hx) (mem_map_ofNat _ hy)
  obtain ⟨b, hb, hbval, hbmem, hblen⟩ := borrowPass_spec a1 0 (Or.inl rfl) hmem1
  have hout_lt : ival (borrowPass a1 0) < 100 ^ x.a.length := by
    have := ival_lt (borrowPass a1 0) hbmem
    rwa [hblen, hlen1] at this
  have hb0 : b = 0 := by
    rcases hb with rfl | rfl
    · rfl
    · exfalso
      rw [hlen1] at hbval
      have hbig : (100:Int) ^ x.a.length ≤ ival (borrowPass a1 0) := by
        rw [hbval, hival1]
        have : (val y.a : Int) ≤ (val x.a : Int) := by exact_mod_cast hv
        omega
      omega
  rw [hb0] at hbval
  have hival_out : ival (borrowPass a1 0) = (val x.a : Int) - (val y.a : Int) := by
    rw [hbval, hival1]; ring
  have hcast : (val ((borrowPass a1 0).map Int.toNat) : Int)
      = (val x.a : Int) - (val y.a : Int) := by
    rw [ival_map_toNat _ (fun z hz => (hbmem z hz).1), hival_out]
  have hvout : val ((borrowPass a1 0).map Int.toNat) = val x.a - val y.a := by
    have h2 : ((val x.a - val y.a : Nat) : Int) = (val x.a : Int) - (val y.a : Int) :=
      Nat.cast_sub hv
    omega
  have hne : (borrowPass a1 0).map Int.toNat ≠ [] := by
    intro h
    have := congrArg List.length h
    simp [hblen, hlen1] at this
    exact hxne this
  refine ⟨?_, ?_, trimmed_dtz _ hne⟩
  · rw [val_dtz, hvout]
  · refine digok_dtz _ ?_
    intro d hd
    rcases List.mem_map.mp hd with ⟨z, hz, rfl⟩
    have := hbmem z hz
    omega

theorem absSub_spec_true (x y : BigInteger) (hx : DigOK x.a) (hy : DigOK y.a)
    (hyne : y.a ≠ []) (hlen : x.a.length ≤ y.a.length) (hv : val x.a ≤ val y.a) :
    val (abs_subtract_small_from_big x y true) = val y.a - val x.a ∧
    DigOK (abs_subtract_small_from_big x y true) ∧
    Trimmed (abs_subtract_small_from_big x y true) := by
  have hres : abs_subtract_small_from_big x y true =
      dtz (((borrowPass (subPointwise ((x.a.map Int.ofNat).takeD y.a.length 0)
        (y.a.map Int.ofNat) (-1)) 0)).map Int.toNat) := by
    simp [abs_subtract_small_from_big]
  rw [hres]
  set a0 := (x.a.map Int.ofNat).takeD y.a.length 0 with ha0
  have hlen0 : a0.length = y.a.length := List.takeD_length _ _ _
  have hmem0 : ∀ d ∈ a0, 0 ≤ d ∧ d < 100 := by
    rw [ha0, takeD_eq_append 0 _ _ (by simpa using hlen)]
    intro d hd
    rcases List.mem_append.mp hd with hm | hm
    · exact mem_map_ofNat _ hx d hm
    · have := List.eq_of_mem_replicate hm
      omega
  have hival0 : ival a0 = (val x.a : Int) := by
    rw [ha0, takeD_eq_append 0 _ _ (by simpa using hlen), ival_append,
      ival_replicate_zero, ival_map_ofNat]
    ring
  set a1 := subPointwise a0 (y.a.map Int.ofNat) (-1) with ha1
  have hlen1 : a1.length = y.a.length := by
    rw [ha1, subPointwise_length _ _ _ (by simp [hlen0])]
    exact hlen0
  have hival1 : ival a1 = (val y.a : Int) - (val x.a : Int) := by
    rw [ha1, subPointwise_negone _ _ (by simp [hlen0]), ival_map_ofNat, hival0]
  have hmem1 : ∀ d ∈ a1, -100 < d ∧ d < 100 := by
    rw [ha1]
    exact subPointwise_mem _ _ _ (Or.inr rfl) hmem0 (mem_map_ofNat _ hy)
  obtain ⟨b, hb, hbval, hbmem, hblen⟩ := borrowPass_spec a1 0 (Or.inl rfl) hmem1
  have hout_lt : ival (borrowPass a1 0) < 100 ^ y.a.length := by
    have := ival_lt (borrowPass a1 0) hbmem
    rwa [hblen, hlen1] at this
  have hb0 : b = 0 := by
    rcases hb with rfl | rfl
    · rfl
    · exfalso
      rw [hlen1] at hbval
      have hbig : (100:Int) ^ y.a.length ≤ ival (borrowPass a1 0) := by
        rw [hbval, hival1]
        have : (val x.a : Int) ≤ (val y.a : Int) := by exact_mod_cast hv
        omega
      omega
  rw [hb0] at hbval
  have hival_out : ival (borrowPass a1 0) = (val y.a : Int) - (val x.a : Int) := by
    rw [hbval, hival1]; ring
  have hcast : (val ((borrowPass a1 0).map Int.toNat) : Int)
      = (val y.a : Int) - (val x.a : Int) := by
    rw [ival_map_toNat _ (fun z hz => (hbmem z hz).1), hival_out]
  have hvout : val ((borrowPass a1 0).map Int.toNat) = val y.a - val x.a := by
    have h2 : ((val y.a - val x.a : Nat) : Int) = (val y.a : Int) - (val x.a : Int) :=
      Nat.cast_sub hv
    omega
  have hne : (borrowPass a1 0).map Int.toNat ≠ [] := by
    intro h
    have := congrArg List.length h
    simp [hblen, hlen1] at this
    exact hyne this
  refine ⟨?_, ?_, trimmed_dtz _ hne⟩
  · rw [val_dtz, hvout]
  · refine digok_dtz _ ?_
    intro d hd
    rcases List.mem_map.mp hd with ⟨z, hz, rfl⟩
    have := hbmem z hz
    omega

/-! ### Signed addition -/

theorem toInt_plus (x : BigInteger) (h : x.sign = Sign.plus) :
    toInt x = (val x.a : Int) := by
  rw [toInt, h]
  simp

theorem toInt_minus (x : BigInteger) (h : x.sign = Sign.minus) :
    toInt x = -(val x.a : Int) := by
  rw [toInt, h]
  simp

theorem len_le_of_val_lt (x y : BigInteger) (tx : Trimmed x.a)
    (hy : DigOK y.a) (ty : Trimmed y.a) (h : val x.a < val y.a) :
    x.a.length ≤ y.a.length := by
  by_contra hc
  push_neg at hc
  have hx0 : x.a ≠ [0] := by
    intro h0
    rw [h0] at hc
    simp at hc
    have := ty.1
    cases hya : y.a with
    | nil => exact this hya
    | cons d ds => rw [hya] at hc; simp at hc
  have : val y.a < val x.a := by
    calc val y.a < 100 ^ y.a.length := val_lt y.a hy
      _ ≤ 100 ^ (x.a.length - 1) := Nat.pow_le_pow_right (by omega) (by omega)
      _ ≤ val x.a := val_lower x.a tx hx0
  omega

theorem bigAdd_correct (x y : BigInteger)
    (hx : DigOK x.a) (tx : Trimmed x.a) (hxz : val x.a = 0 → x.sign = Sign.plus)
    (hy : DigOK y.a) (ty : Trimmed y.a) :
    toInt (bigAdd x y) = toInt x + toInt y ∧ Canon (bigAdd x y) := by
  by_cases hs : x.sign = y.sign
  · -- same signs: magnitudes add, sign kept
    have heq : bigAdd x y =
        { a := dtz (addLoop (x.a.takeD (max x.a.length y.a.length) 0)
                            (y.a.takeD (max x.a.length y.a.length) 0) 0),
          sign := x.sign } := by
      rw [bigAdd, if_pos hs]
    have hlx : x.a.length ≤ max x.a.length y.a.length := Nat.le_max_left _ _
    have hly : y.a.length ≤ max x.a.length y.a.length := Nat.le_max_right _ _
    have hA := addLoop_spec (x.a.takeD (max x.a.length y.a.length) 0)
      (y.a.takeD (max x.a.length y.a.length) 0) 0
      (by rw [List.takeD_length, List.takeD_length])
      (digok_pad _ _ hlx hx) (digok_pad _ _ hly hy) (by omega)
    have hval : val (bigAdd x y).a = val x.a + val y.a := by
      rw [heq]
      show val (dtz _) = _
      rw [val_dtz, hA.1, val_pad _ _ hlx, val_pad _ _ hly]
      omega
    have hsign : (bigAdd x y).sign = x.sign := by rw [heq]
    refine ⟨?_, ?_, ?_, ?_⟩
    · rcases hxs : x.sign with _ | _
      · rw [toInt_plus _ (hsign.trans hxs), toInt_plus x hxs,
          toInt_plus y (hs ▸ hxs), hval]
        push_cast
        ring
      · rw [toInt_minus _ (hsign.trans hxs), toInt_minus x hxs,
          toInt_minus y (hs ▸ hxs), hval]
        push_cast
        ring
    · rw [heq]
      exact digok_dtz _ hA.2.1
    · rw [heq]
      exact trimmed_dtz _ hA.2.2
    · intro h0
      rw [hval] at h0
      rw [hsign]
      exact hxz (by omega)
  · -- different signs: subtract the smaller magnitude
    by_cases hl : lessAbs x y = true
    · have hvlt : val x.a < val y.a := (lessAbs_iff x y hx tx hy ty).mp hl
      have hlen : x.a.length ≤ y.a.length := len_le_of_val_lt x y tx hy ty hvlt
      have hSpec := absSub_spec_true x y hx hy ty.1 hlen (by omega)
      have hr0 : abs_subtract_small_from_big x y true ≠ [0] := by
        intro h0
        have := hSpec.1
        rw [h0] at this
        simp [val] at this
        omega
      have heq : bigAdd x y =
          { a := dtz (abs_subtract_small_from_big x y true), sign := y.sign } := by
        rw [bigAdd, if_neg hs]
        simp only [hl, if_pos, if_true]
        rw [if_neg hr0]
      have hval : val (bigAdd x y).a = val y.a - val x.a := by
        rw [heq]
        show val (dtz _) = _
        rw [val_dtz, hSpec.1]
      have hsign : (bigAdd x y).sign = y.sign := by rw [heq]
      refine ⟨?_, ?_, ?_, ?_⟩
      · have hcast : ((val y.a - val x.a : Nat) : Int)
            = (val y.a : Int) - (val x.a : Int) := Nat.cast_sub (by omega)
        rcases hys : y.sign with _ | _
        · have hxs : x.sign = Sign.minus := by
            rcases hxs2 : x.sign with _ | _
            · exact absurd (hxs2.trans hys.symm) hs
            · rfl
          rw [toInt_plus _ (hsign.trans hys), toInt_minus x hxs, toInt_plus y hys,
            hval, hcast]
          ring
        · have hxs : x.sign = Sign.plus := by
            rcases hxs2 : x.sign with _ | _
            · rfl
            · exact absurd (hxs2.trans hys.symm) hs
          rw [toInt_minus _ (hsign.trans hys), toInt_plus x hxs, toInt_minus y hys,
            hval, hcast]
          ring
      · rw [heq]
        exact digok_dtz _ hSpec.2.1
      · rw [heq]
        exact trimmed_dtz _ hSpec.2.2.1
      · intro h0
        rw [hval] at h0
        omega
    · have hvge : val y.a ≤ val x.a := by
        have := (lessAbs_iff x y hx tx hy ty)
        rcases Nat.lt_or_ge (val x.a) (val y.a) with hlt | hge
        · exact absurd (this.mpr hlt) (by simpa using hl)
        · exact hge
      have hlen : y.a.length ≤ x.a.length := by
        rcases Nat.eq_or_lt_of_le hvge with heqv | hltv
        · -- equal values: compare lengths via canonical bounds
          by_contra hc
          push_neg at hc
          have hy0 : y.a ≠ [0] := by
            intro h0
            rw [h0] at hc
            simp at hc
            cases hxa : x.a with
            | nil => exact tx.1 hxa
            | cons d ds => rw [hxa] at hc; simp at hc
          have : val x.a < val y.a := by
            calc val x.a < 100 ^ x.a.length := val_lt x.a hx
              _ ≤ 100 ^ (y.a.length - 1) := Nat.pow_le_pow_right (by omega) (by omega)
              _ ≤ val y.a := val_lower y.a ty hy0
          omega
        · exact len_le_of_val_lt y x ty hx tx hltv
      have hSpec := absSub_spec_false x y hx hy tx.1 hlen hvge
      have heq : bigAdd x y =
          { a := dtz (abs_subtract_small_from_big x y false),
            sign := if abs_subtract_small_from_big x y false = [0] then Sign.plus
                    else x.sign } := by
        rw [bigAdd, if_neg hs]
        simp only [hl, if_false, Bool.false_eq_true]
      have hval : val (bigAdd x y).a = val x.a - val y.a := by
        rw [heq]
        show val (dtz _) = _
        rw [val_dtz, hSpec.1]
      refine ⟨?_, ?_, ?_, ?_⟩
      · by_cases hr0 : abs_subtract_small_from_big x y false = [0]
        · have hveq : val x.a = val y.a := by
            have := hSpec.1
            rw [hr0] at this
            simp [val] at this
            omega
          have hz : toInt (bigAdd x y) = 0 := by
            rw [heq]
            show toInt { a := dtz _, sign := _ } = 0
            rw [if_pos hr0]
            rw [toInt_plus _ rfl]
            show ((val (dtz _) : Nat) : Int) = 0
            rw [val_dtz, hSpec.1, hveq]
            simp
          rw [hz]
          rcases hxs : x.sign with _ | _
          · have hys : y.sign = Sign.minus := by
              rcases hys2 : y.sign with _ | _
              · exact absurd (hxs.trans hys2.symm) hs
              · rfl
            rw [toInt_plus x hxs, toInt_minus y hys, hveq]
            ring
          · have hys : y.sign = Sign.plus := by
              rcases hys2 : y.sign with _ | _
              · rfl
              · exact absurd (hxs.trans hys2.symm) hs
            rw [toInt_minus x hxs, toInt_plus y hys, hveq]
            ring
        · have hsign : (bigAdd x y).sign = x.sign := by
            rw [heq]
            show (if _ then Sign.plus else x.sign) = x.sign
            rw [if_neg hr0]
          have hcast : ((val x.a - val y.a : Nat) : Int)
              = (val x.a : Int) - (val y.a : Int) := Nat.cast_sub hvge
          rcases hxs : x.sign with _ | _
          · have hys : y.sign = Sign.minus := by
              rcases hys2 : y.sign with _ | _
              · exact absurd (hxs.trans hys2.symm) hs
              · rfl
            rw [toInt_plus _ (hsign.trans hxs), toInt_plus x hxs, toInt_minus y hys,
              hval, hcast]
            ring
          · have hys : y.sign = Sign.plus := by
              rcases hys2 : y.sign with _ | _
              · rfl
              · exact absurd (hxs.trans hys2.symm) hs
            rw [toInt_minus _ (hsign.trans hxs), toInt_minus x hxs, toInt_plus y hys,
              hval, hcast]
            ring
      · rw [heq]
        exact digok_dtz _ hSpec.2.1
      · rw [heq]
        exact trimmed_dtz _ hSpec.2.2.1
      · intro h0
        rw [hval] at h0
        have hveq : val x.a = val y.a := by omega
        have hr0 : abs_subtract_small_from_big x y false = [0] :=
          trimmed_val_zero _ hSpec.2.2 (by rw [hSpec.1]; omega)
        rw [heq]
        show (if _ then Sign.plus else x.sign) = Sign.plus
        rw [if_pos hr0]

theorem bigSub_correct (x y : BigInteger)
    (hx : DigOK x.a) (tx : Trimmed x.a) (hxz : val x.a = 0 → x.sign = Sign.plus)
    (hy : DigOK y.a) (ty : Trimmed y.a) :
    toInt (bigSub x y) = toInt x - toInt y ∧ Canon (bigSub x y) := by
  rw [bigSub]
  have h := bigAdd_correct x { y with sign := y.sign.mul Sign.minus }
    hx tx hxz hy ty
  refine ⟨?_, h.2⟩
  rw [h.1]
  have : toInt { y with sign := y.sign.mul Sign.minus } = -toInt y := by
    rcases hys : y.sign with _ | _
    · rw [toInt_minus _ (by simp [hys, Sign.mul]), toInt_plus y hys]
    · rw [toInt_plus _ (by simp [hys, Sign.mul]), toInt_minus y hys]
      ring
  rw [this]
  ring

/-! ### Multiplication (convolution, carries, sign rule) -/

theorem val_addPoly (u v : List Nat) : val (addPoly u v) = val u + val v := by
  induction u generalizing v with
  | nil => simp [addPoly, val]
  | cons d ds ih =>
      cases v with
      | nil => simp [addPoly, val]
      | cons e es =>
          rw [addPoly]
          simp only [val, ih]
          ring

theorem addPoly_length (u v : List Nat) :
    (addPoly u v).length = max u.length v.length := by
  induction u generalizing v with
  | nil => simp [addPoly]
  | cons d ds ih =>
      cases v with
      | nil => simp [addPoly]
      | cons e es =>
          rw [addPoly]
          simp [ih]
          omega

theorem val_map_mul (a : Nat) (v : List Nat) : val (v.map (a * ·)) = a * val v := by
  induction v with
  | nil => simp [val]
  | cons e es ih =>
      simp only [List.map_cons, val, ih]
      ring

theorem val_polyMul (u v : List Nat) : val (polyMul u v) = val u * val v := by
  induction u with
  | nil => simp [polyMul, val]
  | cons d ds ih =>
      rw [polyMul, val_addPoly, val_map_mul]
      show _ + val (0 :: polyMul ds v) = _
      simp only [val, ih]
      ring

theorem polyMul_length (u v : List Nat) :
    (polyMul u v).length ≤ u.length + v.length := by
  induction u with
  | nil => simp [polyMul]
  | cons d ds ih =>
      rw [polyMul, addPoly_length]
      simp only [List.length_map, List.length_cons]
      omega

theorem upow2F_ge (f : Nat) : ∀ m, m ≤ f + 1 → m ≤ upow2F f m := by
  induction f with
  | zero =>
      intro m hm
      rw [upow2F]
      omega
  | succ g ih =>
      intro m hm
      rw [upow2F]
      by_cases h1 : m ≤ 1
      · rw [if_pos h1]; omega
      · rw [if_neg h1]
        have hrec := ih ((m + 1) / 2) (by omega)
        omega

theorem upow2_ge (m : Nat) : m ≤ upow2 m := upow2F_ge m m (by omega)

theorem upow2F_pos (f m : Nat) : 1 ≤ upow2F f m := by
  induction f generalizing m with
  | zero => rw [upow2F]
  | succ g ih =>
      rw [upow2F]
      by_cases h1 : m ≤ 1
      · rw [if_pos h1]
      · rw [if_neg h1]
        have := ih ((m + 1) / 2)
        omega

theorem carryLoop_length (l : List Nat) : ∀ c, (carryLoop l c).length = l.length := by
  induction l with
  | nil => intro c; rfl
  | cons d ds ih =>
      intro c
      rw [carryLoop]
      simp [ih]

theorem carryLoop_spec (l : List Nat) : ∀ c, val l + c < 100 ^ l.length →
    val (carryLoop l c) = val l + c ∧ DigOK (carryLoop l c) := by
  induction l with
  | nil =>
      intro c hc
      simp [val] at hc
      simp [carryLoop, val, hc]
      intro d hd
      simp at hd
  | cons d ds ih =>
      intro c hc
      simp only [val, List.length_cons, pow_succ] at hc
      have hlt : val ds + (d + c) / 100 < 100 ^ ds.length := by
        have h4 : (d + c + 100 * val ds) / 100 = (d + c) / 100 + val ds :=
          Nat.add_mul_div_left _ _ (by omega)
        have h3 : (d + c + 100 * val ds) / 100 < 100 ^ ds.length :=
          Nat.div_lt_of_lt_mul (by omega)
        omega
      have hrec := ih ((d + c) / 100) (by omega)
      rw [carryLoop]
      constructor
      · simp only [val, hrec.1]
        omega
      · intro z hz
        rcases List.mem_cons.mp hz with rfl | hz2
        · exact Nat.mod_lt _ (by omega)
        · exact hrec.2 z hz2

theorem signInt_mul (s t : Sign) :
    (match s.mul t with | Sign.plus => (1:Int) | Sign.minus => -1)
      = (match s with | Sign.plus => (1:Int) | Sign.minus => -1)
      * (match t with | Sign.plus => (1:Int) | Sign.minus => -1) := by
  rcases s with _ | _ <;> rcases t with _ | _ <;> rfl

theorem upow2_pos (m : Nat) : 1 ≤ upow2 m := upow2F_pos m m

theorem bigMul_correct (x y : BigInteger)
    (hx : DigOK x.a) (tx : Trimmed x.a) (hy : DigOK y.a) (ty : Trimmed y.a) :
    toInt (bigMul x y) = toInt x * toInt y ∧ Canon (bigMul x y) := by
  have hle : x.a.length + y.a.length ≤ 2 * upow2 (max x.a.length y.a.length) := by
    have h1 := upow2_ge (max x.a.length y.a.length)
    have h2 : x.a.length ≤ max x.a.length y.a.length := Nat.le_max_left _ _
    have h3 : y.a.length ≤ max x.a.length y.a.length := Nat.le_max_right _ _
    omega
  have hplen : (polyMul x.a y.a).length ≤ 2 * upow2 (max x.a.length y.a.length) :=
    le_trans (polyMul_length x.a y.a) hle
  have hpadval :
      val ((polyMul x.a y.a).takeD (2 * upow2 (max x.a.length y.a.length)) 0)
        = val x.a * val y.a := by
    rw [val_pad _ _ hplen, val_polyMul]
  have hbound :
      val ((polyMul x.a y.a).takeD (2 * upow2 (max x.a.length y.a.length)) 0) + 0
        < 100 ^ ((polyMul x.a y.a).takeD (2 * upow2 (max x.a.length y.a.length)) 0).length := by
    rw [List.takeD_length, hpadval]
    have h1 : val x.a * val y.a < 100 ^ (x.a.length + y.a.length) := by
      rw [pow_add]
      calc val x.a * val y.a ≤ val x.a * 100 ^ y.a.length :=
            Nat.mul_le_mul_left _ (le_of_lt (val_lt y.a hy))
        _ < 100 ^ x.a.length * 100 ^ y.a.length :=
            (Nat.mul_lt_mul_right (Nat.pos_pow_of_pos _ (by omega))).mpr (val_lt x.a hx)
    calc val x.a * val y.a + 0 < 100 ^ (x.a.length + y.a.length) := by omega
      _ ≤ 100 ^ (2 * upow2 (max x.a.length y.a.length)) :=
          Nat.pow_le_pow_right (by omega) hle
  have hC := carryLoop_spec
    ((polyMul x.a y.a).takeD (2 * upow2 (max x.a.length y.a.length)) 0) 0 hbound
  have hCne :
      carryLoop ((polyMul x.a y.a).takeD (2 * upow2 (max x.a.length y.a.length)) 0) 0
        ≠ [] := by
    intro h
    have hlen := congrArg List.length h
    rw [carryLoop_length, List.takeD_length] at hlen
    simp at hlen
    have := upow2_pos (max x.a.length y.a.length)
    omega
  have heq : bigMul x y =
      { a := dtz (carryLoop ((polyMul x.a y.a).takeD
                (2 * upow2 (max x.a.length y.a.length)) 0) 0),
        sign := if dtz (carryLoop ((polyMul x.a y.a).takeD
                (2 * upow2 (max x.a.length y.a.length)) 0) 0) = [0] then Sign.plus
                else x.sign.mul y.sign } := by
    rw [bigMul]
  have hval : val (bigMul x y).a = val x.a * val y.a := by
    rw [heq]
    show val (dtz _) = _
    rw [val_dtz, hC.1, hpadval]
    omega
  have htr : Trimmed (bigMul x y).a := by
    rw [heq]
    exact trimmed_dtz _ hCne
  have hdg : DigOK (bigMul x y).a := by
    rw [heq]
    exact digok_dtz _ hC.2
  refine ⟨?_, hdg, htr, ?_⟩
  · by_cases h0 : dtz (carryLoop ((polyMul x.a y.a).takeD
        (2 * upow2 (max x.a.length y.a.length)) 0) 0) = [0]
    · have hv0 : val x.a * val y.a = 0 := by
        rw [← hval, heq]
        show val (dtz _) = 0
        rw [h0]
        rfl
      have hz : toInt (bigMul x y) = 0 := by
        rw [toInt]
        have hva : val (bigMul x y).a = 0 := by rw [hval, hv0]
        rw [hva]
        simp
      rw [hz, toInt, toInt]
      have hv00 : val x.a = 0 ∨ val y.a = 0 := Nat.mul_eq_zero.mp hv0
      rcases x.sign with _ | _ <;> rcases y.sign with _ | _ <;>
        rcases hv00 with h00 | h00 <;> simp [h00]
    · have hsg : (bigMul x y).sign = x.sign.mul y.sign := by
        rw [heq]
        show (if _ then Sign.plus else x.sign.mul y.sign) = _
        rw [if_neg h0]
      rw [toInt, hsg, hval, toInt, toInt, signInt_mul]
      push_cast
      ring
  · intro hv0
    rw [hval] at hv0
    rw [heq]
    show (if _ then Sign.plus else _) = Sign.plus
    rw [if_pos ?_]
    have hvz : val (dtz (carryLoop ((polyMul x.a y.a).takeD
        (2 * upow2 (max x.a.length y.a.length)) 0) 0)) = 0 := by
      rw [val_dtz, hC.1, hpadval]
      omega
    exact trimmed_val_zero _ (trimmed_dtz _ hCne) hvz

/-! ### Decimal formatting and parsing -/

theorem dvalM_append (u v : List Nat) :
    dvalM (u ++ v) = dvalM u * 10 ^ v.length + dvalM v := by
  induction u with
  | nil => simp [dvalM]
  | cons d ds ih =>
      rw [List.cons_append]
      show d * 10 ^ (ds ++ v).length + dvalM (ds ++ v) = _
      rw [ih, List.length_append, pow_add]
      show _ = (d * 10 ^ ds.length + dvalM ds) * 10 ^ v.length + dvalM v
      ring

theorem dval_append (u v : List Nat) :
    dval (u ++ v) = dval u + 10 ^ u.length * dval v := by
  induction u with
  | nil => simp [dval]
  | cons d ds ih =>
      rw [List.cons_append]
      show d + 10 * dval (ds ++ v) = d + 10 * dval ds + 10 ^ (d :: ds).length * dval v
      rw [ih, List.length_cons, pow_succ]
      ring

theorem dval_reverse (l : List Nat) : dval l.reverse = dvalM l := by
  induction l with
  | nil => rfl
  | cons d ds ih =>
      rw [List.reverse_cons, dval_append, ih]
      show dvalM ds + 10 ^ ds.reverse.length * (d + 10 * 0) = d * 10 ^ ds.length + dvalM ds
      rw [List.length_reverse]
      ring

theorem dvalM_eq_dval_reverse (l : List Nat) : dvalM l = dval l.reverse :=
  (dval_reverse l).symm

theorem natDigitsF_small (f n : Nat) (h : n < 10) : natDigitsF f n = [n] := by
  cases f with
  | zero => rfl
  | succ g => rw [natDigitsF, if_pos h]

theorem number_to_digits_eq (g : Nat) (h : g < 100) :
    number_to_digits g = [g / 10, g % 10] := by
  by_cases h10 : g < 10
  · rw [number_to_digits, natDigits, natDigitsF_small g g h10]
    have h1 : g / 10 = 0 := Nat.div_eq_of_lt h10
    have h2 : g % 10 = g := Nat.mod_eq_of_lt h10
    simp [h1, h2, List.replicate]
  · have heq : natDigits g = [g / 10, g % 10] := by
      cases hg : g with
      | zero => omega
      | succ f =>
          rw [natDigits, natDigitsF, if_neg (by omega),
            natDigitsF_small f ((f + 1) / 10) (by omega)]
          rfl
    rw [number_to_digits, heq]
    rfl

theorem flat_digits_spec (gl : List Nat) (h : ∀ g ∈ gl, g < 100) :
    dvalM (gl.flatMap number_to_digits) = valM gl ∧
    (∀ d ∈ gl.flatMap number_to_digits, d < 10) ∧
    (gl.flatMap number_to_digits).length = 2 * gl.length := by
  induction gl with
  | nil => simp [dvalM, valM]
  | cons g gs ih =>
      have hg : g < 100 := h g (by simp)
      have hrec := ih (fun z hz => h z (by simp [hz]))
      have hflat : (g :: gs).flatMap number_to_digits
          = number_to_digits g ++ gs.flatMap number_to_digits := by
        simp [List.flatMap_cons]
      rw [hflat, number_to_digits_eq g hg]
      refine ⟨?_, ?_, ?_⟩
      · rw [dvalM_append, hrec.1, hrec.2.2]
        show (g / 10 * 10 ^ ([(g % 10)] : List Nat).length + dvalM [g % 10])
            * 10 ^ (2 * gs.length) + valM gs = valM (g :: gs)
        have h1 : dvalM [g % 10] = g % 10 := by simp [dvalM]
        rw [h1, valM]
        have h2 : (10:Nat) ^ (2 * gs.length) = 100 ^ gs.length := by
          rw [pow_mul]
          norm_num
        rw [h2]
        have h3 : (([(g % 10)] : List Nat).length) = 1 := rfl
        rw [h3]
        have h4 : g / 10 * 10 ^ 1 + g % 10 = g := by omega
        rw [h4]
      · intro d hd
        rcases List.mem_append.mp hd with hm | hm
        · rcases List.mem_cons.mp hm with rfl | hm2
          · omega
          · simp at hm2
            omega
        · exact hrec.2.1 d hm
      · simp [hrec.2.2]
        ring

theorem stripZeros_dvalM (m : List Nat) : dvalM (stripZeros m) = dvalM m := by
  induction m using stripZeros.induct with
  | case1 => rfl
  | case2 d => rfl
  | case3 d ds ih => simpa [dvalM] using ih
  | case4 d e ds hne => rw [stripZeros, if_neg hne]

theorem stripZeros_ne_nil (m : List Nat) (h : m ≠ []) : stripZeros m ≠ [] := by
  induction m using stripZeros.induct with
  | case1 => exact absurd rfl h
  | case2 d => simp [stripZeros]
  | case3 d ds ih => simpa using ih (by simp)
  | case4 d e ds hne =>
      rw [stripZeros, if_neg hne]
      simp

theorem stripZeros_mem (m : List Nat) (d : Nat) (h : d ∈ stripZeros m) : d ∈ m := by
  induction m using stripZeros.induct with
  | case1 => simpa [stripZeros] using h
  | case2 e => simpa [stripZeros] using h
  | case3 e ds ih =>
      simp only [stripZeros, if_pos rfl] at h
      exact List.mem_cons_of_mem 0 (ih h)
  | case4 e f ds hne =>
      rw [stripZeros, if_neg hne] at h
      exact h

theorem toDec_spec (x : BigInteger) (hx : DigOK x.a) (tx : Trimmed x.a) :
    dvalM (toDec x).digs = val x.a ∧ (∀ d ∈ (toDec x).digs, d < 10) ∧
    (toDec x).digs ≠ [] := by
  have hrev : ∀ g ∈ x.a.reverse, g < 100 := fun g hg => hx g (by simpa using hg)
  have hF := flat_digits_spec x.a.reverse hrev
  refine ⟨?_, ?_, ?_⟩
  · show dvalM (stripZeros _) = _
    rw [stripZeros_dvalM, hF.1, valM_eq_val_reverse, List.reverse_reverse]
  · intro d hd
    exact hF.2.1 d (stripZeros_mem _ d hd)
  · show stripZeros _ ≠ []
    refine stripZeros_ne_nil _ ?_
    intro h
    have := congrArg List.length h
    rw [hF.2.2] at this
    simp at this
    exact tx.1 (by simpa using this)

theorem groupPairs_spec (r : List Nat) (h : ∀ d ∈ r, d < 10) :
    val (groupPairs r) = dval r ∧ DigOK (groupPairs r) ∧
    (r ≠ [] → groupPairs r ≠ []) := by
  induction r using groupPairs.induct with
  | case1 =>
      refine ⟨by simp [groupPairs, val, dval], ?_, by simp⟩
      intro z hz
      simp [groupPairs] at hz
  | case2 d =>
      refine ⟨by simp [groupPairs, val, dval], ?_, by simp [groupPairs]⟩
      intro z hz
      simp [groupPairs] at hz
      have := h d (by simp)
      omega
  | case3 d0 d1 ds ih =>
      have h0 : d0 < 10 := h d0 (by simp)
      have h1 : d1 < 10 := h d1 (by simp)
      have hrec := ih (fun z hz => h z (by simp [hz]))
      rw [groupPairs]
      refine ⟨?_, ?_, by simp⟩
      · simp only [val, dval, hrec.1]
        omega
      · intro z hz
        rcases List.mem_cons.mp hz with rfl | hz2
        · omega
        · exact hrec.2.1 z hz2

theorem parse_spec (s : DecStr) (hs : ValidDec s) :
    val (parse s).a = dvalM s.digs ∧ DigOK (parse s).a ∧ Trimmed (parse s).a ∧
    (parse s).sign = (if s.neg then Sign.minus else Sign.plus) := by
  have hG := groupPairs_spec s.digs.reverse (fun d hd => hs.2 d (by simpa using hd))
  refine ⟨?_, ?_, ?_, rfl⟩
  · show val (dtz _) = _
    rw [val_dtz, hG.1, dvalM_eq_dval_reverse]
  · exact digok_dtz _ hG.2.1
  · exact trimmed_dtz _ (hG.2.2 (by simpa using hs.1))

/-! ### Long division -/

theorem div10M_spec (m : List Nat) : ∀ add, add < 10 → (∀ d ∈ m, d < 100) →
    valM (div10M m add) = (add * 100 ^ m.length + valM m) / 10 ∧
    (∀ d ∈ div10M m add, d < 100) ∧ (div10M m add).length = m.length := by
  induction m with
  | nil =>
      intro add hadd _
      refine ⟨?_, by simp [div10M], rfl⟩
      simp [div10M, valM]
      omega
  | cons d ds ih =>
      intro add hadd hm
      have hd : d < 100 := hm d (by simp)
      have hrec := ih ((d + add * 100) % 10) (by omega)
        (fun z hz => hm z (by simp [hz]))
      rw [div10M]
      refine ⟨?_, ?_, by simp [hrec.2.2]⟩
      · simp only [valM, hrec.2.2, hrec.1, List.length_cons]
        have hnum : add * 100 ^ (ds.length + 1) + (d * 100 ^ ds.length + valM ds)
            = ((d + add * 100) % 10 * 100 ^ ds.length + valM ds)
              + 10 * ((d + add * 100) / 10 * 100 ^ ds.length) := by
          have hsplit : d + add * 100
              = 10 * ((d + add * 100) / 10) + (d + add * 100) % 10 := by omega
          calc add * 100 ^ (ds.length + 1) + (d * 100 ^ ds.length + valM ds)
              = (d + add * 100) * 100 ^ ds.length + valM ds := by
                rw [pow_succ]
                ring
            _ = (10 * ((d + add * 100) / 10) + (d + add * 100) % 10)
                  * 100 ^ ds.length + valM ds := by rw [← hsplit]
            _ = ((d + add * 100) % 10 * 100 ^ ds.length + valM ds)
                  + 10 * ((d + add * 100) / 10 * 100 ^ ds.length) := by ring
        rw [hnum, Nat.add_mul_div_left _ _ (show 0 < 10 by omega)]
        omega
      · intro z hz
        rcases List.mem_cons.mp hz with rfl | hz2
        · omega
        · exact hrec.2.1 z hz2

theorem div10_spec (x : BigInteger) (hx : DigOK x.a) (tx : Trimmed x.a) :
    val (div10 x).a = val x.a / 10 ∧ DigOK (div10 x).a ∧ Trimmed (div10 x).a ∧
    (div10 x).sign = x.sign := by
  have hrev : ∀ d ∈ x.a.reverse, d < 100 := fun d hd => hx d (by simpa using hd)
  have hD := div10M_spec x.a.reverse 0 (by omega) hrev
  refine ⟨?_, ?_, ?_, rfl⟩
  · show val (dtz _) = _
    rw [val_dtz, val_reverse, hD.1, valM_eq_val_reverse, List.reverse_reverse]
    simp
  · refine digok_dtz _ ?_
    intro d hd
    exact hD.2.1 d (by simpa using hd)
  · refine trimmed_dtz _ ?_
    intro h
    have := congrArg List.length h
    simp [hD.2.2] at this
    exact tx.1 this

theorem trialSub_le (f : Nat) : ∀ rem sub, (trialSub f rem sub).1 ≤ f := by
  induction f with
  | zero => intro rem sub; rw [trialSub]
  | succ g ih =>
      intro rem sub
      rw [trialSub]
      by_cases h : lessAbs rem sub = true
      · rw [if_pos h]; omega
      · rw [if_neg h]
        have := ih (bigSub rem sub) sub
        simp only []
        omega

theorem trialSub_spec (f : Nat) : ∀ (rem sub : BigInteger),
    Canon rem → rem.sign = Sign.plus → Canon sub → sub.sign = Sign.plus →
    0 < val sub.a → val rem.a < (f + 1) * val sub.a →
    (trialSub f rem sub).1 = val rem.a / val sub.a ∧
    Canon (trialSub f rem sub).2 ∧ (trialSub f rem sub).2.sign = Sign.plus ∧
    val (trialSub f rem sub).2.a = val rem.a % val sub.a := by
  induction f with
  | zero =>
      intro rem sub hr hrs hs hss hpos hlt
      rw [trialSub]
      have hv : val rem.a < val sub.a := by omega
      exact ⟨(Nat.div_eq_of_lt hv).symm, hr, hrs, (Nat.mod_eq_of_lt hv).symm⟩
  | succ g ih =>
      intro rem sub hr hrs hs hss hpos hlt
      rw [trialSub]
      by_cases h : lessAbs rem sub = true
      · rw [if_pos h]
        have hv : val rem.a < val sub.a :=
          (lessAbs_iff rem sub hr.1 hr.2.1 hs.1 hs.2.1).mp h
        exact ⟨(Nat.div_eq_of_lt hv).symm, hr, hrs, (Nat.mod_eq_of_lt hv).symm⟩
      · rw [if_neg h]
        have hge : val sub.a ≤ val rem.a := by
          rcases Nat.lt_or_ge (val rem.a) (val sub.a) with hlt2 | hge2
          · exact absurd ((lessAbs_iff rem sub hr.1 hr.2.1 hs.1 hs.2.1).mpr hlt2) h
          · exact hge2
        have hSub := bigSub_correct rem sub hr.1 hr.2.1 hr.2.2 hs.1 hs.2.1
        have hsubInt : toInt (bigSub rem sub)
            = (val rem.a : Int) - (val sub.a : Int) := by
          rw [hSub.1, toInt_plus rem hrs, toInt_plus sub hss]
        have hnn : 0 ≤ toInt (bigSub rem sub) := by
          rw [hsubInt]
          have : (val sub.a : Int) ≤ (val rem.a : Int) := by exact_mod_cast hge
          omega
        have hsignp : (bigSub rem sub).sign = Sign.plus :=
          sign_plus_of_nonneg _ hSub.2 hnn
        have hvalSub : val (bigSub rem sub).a = val rem.a - val sub.a := by
          have h1 : (toInt (bigSub rem sub)).natAbs = val (bigSub rem sub).a :=
            toInt_natAbs _
          rw [hsubInt] at h1
          have h2 : ((val rem.a : Int) - (val sub.a : Int)).natAbs
              = val rem.a - val sub.a := by
            omega
          omega
        have hrec := ih (bigSub rem sub) sub hSub.2 hsignp hs hss hpos
          (by
            rw [hvalSub]
            have hexp : (g + 1 + 1) * val sub.a
                = (g + 1) * val sub.a + val sub.a := by ring
            omega)
        rw [hvalSub] at hrec
        refine ⟨?_, hrec.2.1, hrec.2.2.1, ?_⟩
        · show (trialSub g (bigSub rem sub) sub).1 + 1 = _
          rw [hrec.1]
          rw [Nat.div_eq_sub_div hpos hge]
        · show val (trialSub g (bigSub rem sub) sub).2.a = _
          rw [hrec.2.2.2]
          exact (Nat.mod_eq_sub_mod hge).symm

theorem divLoop_length (deg : Nat) : ∀ rem sub,
    (divLoop deg rem sub).length = deg + 1 := by
  induction deg with
  | zero => intro rem sub; rfl
  | succ d ih =>
      intro rem sub
      rw [divLoop]
      simp [ih]

theorem divLoop_digits (deg : Nat) : ∀ rem sub, ∀ d ∈ divLoop deg rem sub, d < 10 := by
  induction deg with
  | zero =>
      intro rem sub d hd
      rw [divLoop] at hd
      simp at hd
      have := trialSub_le 9 rem sub
      omega
  | succ g ih =>
      intro rem sub d hd
      rw [divLoop] at hd
      rcases List.mem_cons.mp hd with rfl | hd2
      · have := trialSub_le 9 rem sub
        omega
      · exact ih _ _ d hd2

theorem divLoop_spec (deg : Nat) : ∀ (rem sub : BigInteger) (V : Nat),
    Canon rem → rem.sign = Sign.plus → Canon sub → sub.sign = Sign.plus →
    0 < V → val sub.a = V * 10 ^ deg → val rem.a < 10 * val sub.a →
    dvalM (divLoop deg rem sub) = val rem.a / V := by
  induction deg with
  | zero =>
      intro rem sub V hr hrs hs hss hV hsub hlt
      rw [divLoop]
      have hT := trialSub_spec 9 rem sub hr hrs hs hss (by omega)
        (by rw [hsub] at hlt ⊢; simpa using hlt)
      show dvalM [(trialSub 9 rem sub).1] = _
      simp [dvalM, hT.1, hsub]
  | succ d ih =>
      intro rem sub V hr hrs hs hss hV hsub hlt
      have hspos : 0 < val sub.a := by
        rw [hsub]
        exact Nat.mul_pos hV (Nat.pos_pow_of_pos _ (by omega))
      have hT := trialSub_spec 9 rem sub hr hrs hs hss hspos
        (by omega)
      have hD := div10_spec sub hs.1 hs.2.1
      have hsub10 : val (div10 sub).a = V * 10 ^ d := by
        rw [hD.1, hsub, pow_succ]
        rw [show V * (10 ^ d * 10) = 10 * (V * 10 ^ d) from by ring]
        rw [Nat.mul_div_cancel_left _ (show 0 < 10 by omega)]
      have hCanon10 : Canon (div10 sub) := by
        refine ⟨hD.2.1, hD.2.2.1, fun _ => ?_⟩
        rw [hD.2.2.2, hss]
      have hrec := ih (trialSub 9 rem sub).2 (div10 sub) V hT.2.1 hT.2.2.1
        hCanon10 (by rw [hD.2.2.2, hss]) hV hsub10
        (by
          rw [hT.2.2.2, hsub10]
          have hmod : val rem.a % val sub.a < val sub.a := Nat.mod_lt _ hspos
          have heq : val sub.a = 10 * (V * 10 ^ d) := by
            rw [hsub, pow_succ]
            ring
          omega)
      have key : ∀ (A W M : Nat), 0 < W →
          A / (W * M) * M + A % (W * M) / W = A / W := by
        intro A W M hW
        conv_rhs => rw [← Nat.div_add_mod A (W * M)]
        rw [show W * M * (A / (W * M)) + A % (W * M)
            = A % (W * M) + W * (M * (A / (W * M))) from by ring]
        rw [Nat.add_mul_div_left _ _ hW]
        ring
      rw [divLoop]
      show dvalM ((trialSub 9 rem sub).1 :: divLoop d (trialSub 9 rem sub).2 (div10 sub)) = _
      rw [dvalM]
      rw [divLoop_length, hrec, hT.1, hT.2.2.2, hsub]
      exact key (val rem.a) V (10 ^ (d + 1)) hV

theorem dvalM_replicate_zero (k : Nat) : dvalM (List.replicate k 0) = 0 := by
  induction k with
  | zero => rfl
  | succ m ih => simp [List.replicate, dvalM, ih]

theorem natCast_tdiv (m n : Nat) : ((m : Int)).tdiv (n : Int) = ((m / n : Nat) : Int) := rfl

theorem tdiv_toInt (x y : BigInteger) :
    (toInt x).tdiv (toInt y)
      = (match x.sign.mul y.sign with | Sign.plus => (1:Int) | Sign.minus => -1)
        * ((val x.a / val y.a : Nat) : Int) := by
  rcases hxs : x.sign with _ | _ <;> rcases hys : y.sign with _ | _
  · rw [toInt_plus x hxs, toInt_plus y hys, natCast_tdiv]
    show _ = 1 * _
    ring
  · rw [toInt_plus x hxs, toInt_minus y hys, Int.tdiv_neg, natCast_tdiv]
    show _ = -1 * _
    ring
  · rw [toInt_minus x hxs, toInt_plus y hys, Int.neg_tdiv, natCast_tdiv]
    show _ = -1 * _
    ring
  · rw [toInt_minus x hxs, toInt_minus y hys, Int.neg_tdiv, Int.tdiv_neg, neg_neg,
      natCast_tdiv]
    show _ = 1 * _
    ring

theorem val_fast_lt (x y : BigInteger) (hx : DigOK x.a) (tx : Trimmed x.a)
    (ty : Trimmed y.a) (hy0 : y.a ≠ [0]) (hfast : x.a.length < y.a.length) :
    val x.a < val y.a := by
  calc val x.a < 100 ^ x.a.length := val_lt x.a hx
    _ ≤ 100 ^ (y.a.length - 1) := Nat.pow_le_pow_right (by omega) (by omega)
    _ ≤ val y.a := val_lower y.a ty hy0

theorem bigDiv_correct (x y : BigInteger) (hx : Canon x) (hy : Canon y)
    (hy0 : val y.a ≠ 0) :
    toInt (bigDiv x y) = (toInt x).tdiv (toInt y) ∧ Canon (bigDiv x y) ∧
    val (bigDiv x y).a = val x.a / val y.a := by
  have hynz : y.a ≠ [0] := by
    intro h
    rw [h] at hy0
    exact hy0 rfl
  have hyne : y.a ≠ [] := hy.2.1.1
  have hylen : 1 ≤ y.a.length := by
    cases hya : y.a with
    | nil => exact absurd hya hyne
    | cons d ds => simp
  by_cases hfast : x.a.length < y.a.length
  · have heq : bigDiv x y = { a := [0], sign := Sign.plus } := by
      rw [bigDiv, if_pos hfast]
    have hvlt : val x.a < val y.a := val_fast_lt x y hx.1 hx.2.1 hy.2.1 hynz hfast
    have hdiv0 : val x.a / val y.a = 0 := Nat.div_eq_of_lt hvlt
    refine ⟨?_, ?_, ?_⟩
    · rw [heq, tdiv_toInt, hdiv0]
      show toInt { a := [0], sign := Sign.plus } = _
      rw [toInt_plus _ rfl]
      simp [val]
    · rw [heq]
      refine ⟨?_, ⟨by simp, fun _ => rfl⟩, fun _ => rfl⟩
      intro d hd
      simp at hd
      omega
    · rw [heq, hdiv0]
      show val [0] = 0
      simp [val]
  · -- long-division path
    have hlen : y.a.length ≤ x.a.length := by omega
    have hT := toDec_spec ({ y with sign := Sign.plus } : BigInteger) hy.1 hy.2.1
    have hValid : ValidDec
        { neg := false,
          digs := (toDec ({ y with sign := Sign.plus } : BigInteger)).digs ++ List.replicate ((x.a.length - y.a.length + 1) * 2) 0 } := by
      refine ⟨by simp [hT.2.2], ?_⟩
      intro d hd
      rcases List.mem_append.mp hd with hm | hm
      · exact hT.2.1 d hm
      · have := List.eq_of_mem_replicate hm
        omega
    have hP := parse_spec _ hValid
    have hsubval : val (parse
        { neg := false,
          digs := (toDec ({ y with sign := Sign.plus } : BigInteger)).digs ++ List.replicate ((x.a.length - y.a.length + 1) * 2) 0 }).a = val y.a * 10 ^ ((x.a.length - y.a.length + 1) * 2) := by
      rw [hP.1, dvalM_append, dvalM_replicate_zero, hT.1]
      simp
    have hsubCanon : Canon (parse
        { neg := false,
          digs := (toDec ({ y with sign := Sign.plus } : BigInteger)).digs ++ List.replicate ((x.a.length - y.a.length + 1) * 2) 0 }) := by
      refine ⟨hP.2.1, hP.2.2.1, fun _ => ?_⟩
      rw [hP.2.2.2]
      rfl
    have hsubSign : (parse
        { neg := false,
          digs := (toDec ({ y with sign := Sign.plus } : BigInteger)).digs ++ List.replicate ((x.a.length - y.a.length + 1) * 2) 0 }).sign = Sign.plus := by
      rw [hP.2.2.2]
      rfl
    have hremCanon : Canon ({ x with sign := Sign.plus } : BigInteger) :=
      ⟨hx.1, hx.2.1, fun _ => rfl⟩
    have hbound : val ({ x with sign := Sign.plus } : BigInteger).a
        < 10 * (val y.a * 10 ^ ((x.a.length - y.a.length + 1) * 2)) := by
      show val x.a < _
      have h1 : val x.a < 100 ^ x.a.length := val_lt x.a hx.1
      have h2 : (100:Nat) ^ x.a.length = 10 ^ (2 * x.a.length) := by
        rw [pow_mul]
        norm_num
      have h3 : 100 ^ (y.a.length - 1) ≤ val y.a := val_lower y.a hy.2.1 hynz
      have h4 : (100:Nat) ^ (y.a.length - 1) = 10 ^ (2 * (y.a.length - 1)) := by
        rw [pow_mul]
        norm_num
      have h5 : 2 * (y.a.length - 1) + (x.a.length - y.a.length + 1) * 2 + 1
          = 2 * x.a.length + 1 := by omega
      calc val x.a < 10 ^ (2 * x.a.length) := by rw [← h2]; exact h1
        _ ≤ 10 ^ (2 * (y.a.length - 1)) * 10 ^ ((x.a.length - y.a.length + 1) * 2) * 10 := by
            have hpow : (10:Nat) ^ (2 * (y.a.length - 1))
                  * 10 ^ ((x.a.length - y.a.length + 1) * 2) * 10
                = 10 ^ (2 * (y.a.length - 1) + (x.a.length - y.a.length + 1) * 2 + 1) := by
              rw [pow_add, pow_add, pow_one]
            rw [hpow, h5]
            exact Nat.pow_le_pow_right (by omega) (by omega)
        _ ≤ val y.a * 10 ^ ((x.a.length - y.a.length + 1) * 2) * 10 := by
            have hmul := Nat.mul_le_mul_right
              ((10:Nat) ^ ((x.a.length - y.a.length + 1) * 2) * 10) (h4 ▸ h3)
            calc 10 ^ (2 * (y.a.length - 1)) * 10 ^ ((x.a.length - y.a.length + 1) * 2) * 10
                = 10 ^ (2 * (y.a.length - 1)) * (10 ^ ((x.a.length - y.a.length + 1) * 2) * 10) := by
                  ring
              _ ≤ val y.a * (10 ^ ((x.a.length - y.a.length + 1) * 2) * 10) := hmul
              _ = val y.a * 10 ^ ((x.a.length - y.a.length + 1) * 2) * 10 := by ring
        _ = 10 * (val y.a * 10 ^ ((x.a.length - y.a.length + 1) * 2)) := by ring
    have hL := divLoop_spec ((x.a.length - y.a.length + 1) * 2)
      ({ x with sign := Sign.plus } : BigInteger)
      (parse
        { neg := false,
          digs := (toDec ({ y with sign := Sign.plus } : BigInteger)).digs ++ List.replicate ((x.a.length - y.a.length + 1) * 2) 0 })
      (val y.a) hremCanon rfl hsubCanon hsubSign (Nat.pos_of_ne_zero hy0)
      hsubval (by rw [hsubval]; exact hbound)
    have hdsValid : ValidDec
        { neg := decide (x.sign.mul y.sign = Sign.minus),
          digs := divLoop ((x.a.length - y.a.length + 1) * 2) ({ x with sign := Sign.plus } : BigInteger) (parse { neg := false, digs := (toDec ({ y with sign := Sign.plus } : BigInteger)).digs ++ List.replicate ((x.a.length - y.a.length + 1) * 2) 0 }) } := by
      constructor
      · intro h
        have := congrArg List.length h
        rw [divLoop_length] at this
        simp at this
      · exact divLoop_digits _ _ _
    have hQ := parse_spec _ hdsValid
    have hqval : val (parse
        { neg := decide (x.sign.mul y.sign = Sign.minus),
          digs := divLoop ((x.a.length - y.a.length + 1) * 2) ({ x with sign := Sign.plus } : BigInteger) (parse { neg := false, digs := (toDec ({ y with sign := Sign.plus } : BigInteger)).digs ++ List.replicate ((x.a.length - y.a.length + 1) * 2) 0 }) }).a = val x.a / val y.a := by
      rw [hQ.1, hL]
    have heq : bigDiv x y =
        { a := (parse
            { neg := decide (x.sign.mul y.sign = Sign.minus),
              digs := divLoop ((x.a.length - y.a.length + 1) * 2) ({ x with sign := Sign.plus } : BigInteger) (parse { neg := false, digs := (toDec ({ y with sign := Sign.plus } : BigInteger)).digs ++ List.replicate ((x.a.length - y.a.length + 1) * 2) 0 }) }).a,
          sign := if (parse
              { neg := decide (x.sign.mul y.sign = Sign.minus),
                digs := divLoop ((x.a.length - y.a.length + 1) * 2) ({ x with sign := Sign.plus } : BigInteger) (parse { neg := false, digs := (toDec ({ y with sign := Sign.plus } : BigInteger)).digs ++ List.replicate ((x.a.length - y.a.length + 1) * 2) 0 }) }).a = [0] then Sign.plus
            else (parse
              { neg := decide (x.sign.mul y.sign = Sign.minus),
                digs := divLoop ((x.a.length - y.a.length + 1) * 2) ({ x with sign := Sign.plus } : BigInteger) (parse { neg := false, digs := (toDec ({ y with sign := Sign.plus } : BigInteger)).digs ++ List.replicate ((x.a.length - y.a.length + 1) * 2) 0 }) }).sign } := by
      rw [bigDiv, if_neg hfast]
    refine ⟨?_, ?_, ?_⟩
    · rw [tdiv_toInt]
      by_cases h0 : (parse
          { neg := decide (x.sign.mul y.sign = Sign.minus),
            digs := divLoop ((x.a.length - y.a.length + 1) * 2) ({ x with sign := Sign.plus } : BigInteger) (parse { neg := false, digs := (toDec ({ y with sign := Sign.plus } : BigInteger)).digs ++ List.replicate ((x.a.length - y.a.length + 1) * 2) 0 }) }).a = [0]
      · have hv0 : val x.a / val y.a = 0 := by
          rw [← hqval, h0]
          rfl
        have hAz : (bigDiv x y).a = [0] := by
          rw [heq]
          exact h0
        have hSz : (bigDiv x y).sign = Sign.plus := by
          rw [heq]
          show (if _ then Sign.plus else _) = Sign.plus
          rw [if_pos h0]
        rw [toInt, hAz, hSz, hv0]
        simp [val]
      · have hA : (bigDiv x y).a = (parse
            { neg := decide (x.sign.mul y.sign = Sign.minus),
              digs := divLoop ((x.a.length - y.a.length + 1) * 2) ({ x with sign := Sign.plus } : BigInteger) (parse { neg := false, digs := (toDec ({ y with sign := Sign.plus } : BigInteger)).digs ++ List.replicate ((x.a.length - y.a.length + 1) * 2) 0 }) }).a := by
          rw [heq]
        have hS : (bigDiv x y).sign = (parse
            { neg := decide (x.sign.mul y.sign = Sign.minus),
              digs := divLoop ((x.a.length - y.a.length + 1) * 2) ({ x with sign := Sign.plus } : BigInteger) (parse { neg := false, digs := (toDec ({ y with sign := Sign.plus } : BigInteger)).digs ++ List.replicate ((x.a.length - y.a.length + 1) * 2) 0 }) }).sign := by
          rw [heq]
          show (if _ then Sign.plus else _) = _
          rw [if_neg h0]
        rw [toInt, hA, hS, hQ.2.2.2, hqval]
        rcases hms : x.sign.mul y.sign with _ | _ <;> simp
    · rw [heq]
      refine ⟨hQ.2.1, hQ.2.2.1, ?_⟩
      intro h0
      have hz0 : (parse
          { neg := decide (x.sign.mul y.sign = Sign.minus),
            digs := divLoop ((x.a.length - y.a.length + 1) * 2) ({ x with sign := Sign.plus } : BigInteger) (parse { neg := false, digs := (toDec ({ y with sign := Sign.plus } : BigInteger)).digs ++ List.replicate ((x.a.length - y.a.length + 1) * 2) 0 }) }).a = [0] :=
        trimmed_val_zero _ hQ.2.2.1 h0
      show (if _ then Sign.plus else _) = Sign.plus
      rw [if_pos hz0]
    · rw [heq]
      exact hqval

theorem bigDiv_canon (x y : BigInteger) : Canon (bigDiv x y) := by
  by_cases hfast : x.a.length < y.a.length
  · have heq : bigDiv x y = { a := [0], sign := Sign.plus } := by
      rw [bigDiv, if_pos hfast]
    rw [heq]
    refine ⟨?_, ⟨by simp, fun _ => rfl⟩, fun _ => rfl⟩
    intro d hd
    simp at hd
    omega
  · have hdsValid : ValidDec
        { neg := decide (x.sign.mul y.sign = Sign.minus),
          digs := divLoop ((x.a.length - y.a.length + 1) * 2) ({ x with sign := Sign.plus } : BigInteger) (parse { neg := false, digs := (toDec ({ y with sign := Sign.plus } : BigInteger)).digs ++ List.replicate ((x.a.length - y.a.length + 1) * 2) 0 }) } := by
      constructor
      · intro h
        have := congrArg List.length h
        rw [divLoop_length] at this
        simp at this
      · exact divLoop_digits _ _ _
    have hQ := parse_spec _ hdsValid
    have heq : bigDiv x y =
        { a := (parse
            { neg := decide (x.sign.mul y.sign = Sign.minus),
              digs := divLoop ((x.a.length - y.a.length + 1) * 2) ({ x with sign := Sign.plus } : BigInteger) (parse { neg := false, digs := (toDec ({ y with sign := Sign.plus } : BigInteger)).digs ++ List.replicate ((x.a.length - y.a.length + 1) * 2) 0 }) }).a,
          sign := if (parse
              { neg := decide (x.sign.mul y.sign = Sign.minus),
                digs := divLoop ((x.a.length - y.a.length + 1) * 2) ({ x with sign := Sign.plus } : BigInteger) (parse { neg := false, digs := (toDec ({ y with sign := Sign.plus } : BigInteger)).digs ++ List.replicate ((x.a.length - y.a.length + 1) * 2) 0 }) }).a = [0] then Sign.plus
            else (parse
              { neg := decide (x.sign.mul y.sign = Sign.minus),
                digs := divLoop ((x.a.length - y.a.length + 1) * 2) ({ x with sign := Sign.plus } : BigInteger) (parse { neg := false, digs := (toDec ({ y with sign := Sign.plus } : BigInteger)).digs ++ List.replicate ((x.a.length - y.a.length + 1) * 2) 0 }) }).sign } := by
      rw [bigDiv, if_neg hfast]
    rw [heq]
    refine ⟨hQ.2.1, hQ.2.2.1, ?_⟩
    intro h0
    have hz0 : (parse
        { neg := decide (x.sign.mul y.sign = Sign.minus),
          digs := divLoop ((x.a.length - y.a.length + 1) * 2) ({ x with sign := Sign.plus } : BigInteger) (parse { neg := false, digs := (toDec ({ y with sign := Sign.plus } : BigInteger)).digs ++ List.replicate ((x.a.length - y.a.length + 1) * 2) 0 }) }).a = [0] :=
      trimmed_val_zero _ hQ.2.2.1 h0
    show (if _ then Sign.plus else _) = Sign.plus
    rw [if_pos hz0]

theorem bigMod_correct (x y : BigInteger) (hx : Canon x) (hy : Canon y)
    (hy0 : val y.a ≠ 0) :
    toInt (bigMod x y)
      = (match x.sign with | Sign.plus => (1:Int) | Sign.minus => -1)
        * ((val x.a % val y.a : Nat) : Int)
    ∧ Canon (bigMod x y) ∧ val (bigMod x y).a = val x.a % val y.a := by
  have hD := bigDiv_correct x y hx hy hy0
  have hM := bigMul_correct (bigDiv x y) y hD.2.1.1 hD.2.1.2.1 hy.1 hy.2.1
  have hS := bigSub_correct x (bigMul (bigDiv x y) y) hx.1 hx.2.1 hx.2.2
    hM.2.1 hM.2.2.1
  have hmod : ((val x.a % val y.a : Nat) : Int)
      = (val x.a : Int) - (val y.a : Int) * ((val x.a / val y.a : Nat) : Int) := by
    have h := Nat.mod_add_div (val x.a) (val y.a)
    have h2 : ((val x.a % val y.a : Nat) : Int)
        + (val y.a : Int) * ((val x.a / val y.a : Nat) : Int) = (val x.a : Int) := by
      rw [← Nat.cast_mul, ← Nat.cast_add, h]
    linarith [h2]
  have key : toInt (bigSub x (bigMul (bigDiv x y) y))
      = (match x.sign with | Sign.plus => (1:Int) | Sign.minus => -1)
        * ((val x.a % val y.a : Nat) : Int) := by
    rw [hS.1, hM.1, hD.1, tdiv_toInt]
    rcases hxs : x.sign with _ | _ <;> rcases hys : y.sign with _ | _
    · rw [toInt_plus x hxs, toInt_plus y hys]
      show (val x.a : Int) - 1 * ((val x.a / val y.a : Nat) : Int) * (val y.a : Int)
          = 1 * ((val x.a % val y.a : Nat) : Int)
      rw [hmod]
      ring
    · rw [toInt_plus x hxs, toInt_minus y hys]
      show (val x.a : Int)
          - (-1) * ((val x.a / val y.a : Nat) : Int) * (-(val y.a : Int))
          = 1 * ((val x.a % val y.a : Nat) : Int)
      rw [hmod]
      ring
    · rw [toInt_minus x hxs, toInt_plus y hys]
      show -(val x.a : Int) - (-1) * ((val x.a / val y.a : Nat) : Int) * (val y.a : Int)
          = (-1) * ((val x.a % val y.a : Nat) : Int)
      rw [hmod]
      ring
    · rw [toInt_minus x hxs, toInt_minus y hys]
      show -(val x.a : Int)
          - 1 * ((val x.a / val y.a : Nat) : Int) * (-(val y.a : Int))
          = (-1) * ((val x.a % val y.a : Nat) : Int)
      rw [hmod]
      ring
  have hra : (bigMod x y).a = (bigSub x (bigMul (bigDiv x y) y)).a := by
    rw [bigMod]
  have hvr : val (bigSub x (bigMul (bigDiv x y) y)).a = val x.a % val y.a := by
    have h1 := toInt_natAbs (bigSub x (bigMul (bigDiv x y) y))
    rw [key] at h1
    rcases hxs : x.sign with _ | _ <;> rw [hxs] at h1
    · simp at h1
      omega
    · simp at h1
      omega
  refine ⟨?_, ?_, ?_⟩
  · by_cases h0 : (bigSub x (bigMul (bigDiv x y) y)).a = [0]
    · have hmz : val x.a % val y.a = 0 := by
        rw [← hvr, h0]
        rfl
      have hsz : (bigMod x y).sign = Sign.plus := by
        rw [bigMod]
        show (if _ then Sign.plus else _) = Sign.plus
        rw [if_pos h0]
      rw [toInt, hsz, hra, h0, hmz]
      rcases x.sign with _ | _ <;> simp [val]
    · have hsz : (bigMod x y).sign = (bigSub x (bigMul (bigDiv x y) y)).sign := by
        rw [bigMod]
        show (if _ then Sign.plus else _) = _
        rw [if_neg h0]
      rw [toInt, hsz, hra, ← key, toInt]
  · by_cases h0 : (bigSub x (bigMul (bigDiv x y) y)).a = [0]
    · have hsz : (bigMod x y).sign = Sign.plus := by
        rw [bigMod]
        show (if _ then Sign.plus else _) = Sign.plus
        rw [if_pos h0]
      exact ⟨by rw [hra]; exact hS.2.1, by rw [hra]; exact hS.2.2.1, fun _ => hsz⟩
    · have hsz : (bigMod x y).sign = (bigSub x (bigMul (bigDiv x y) y)).sign := by
        rw [bigMod]
        show (if _ then Sign.plus else _) = _
        rw [if_neg h0]
      refine ⟨by rw [hra]; exact hS.2.1, by rw [hra]; exact hS.2.2.1, fun hz => ?_⟩
      rw [hra] at hz
      rw [hsz]
      exact hS.2.2.2 hz
  · rw [hra]
    exact hvr

theorem bigMod_eq_sub (x y : BigInteger)
    (hr : Canon (bigSub x (bigMul (bigDiv x y) y))) :
    bigMod x y = bigSub x (bigMul (bigDiv x y) y) := by
  rw [bigMod]
  by_cases h0 : (bigSub x (bigMul (bigDiv x y) y)).a = [0]
  · have hsp : (bigSub x (bigMul (bigDiv x y) y)).sign = Sign.plus :=
      hr.2.2 (by rw [h0]; rfl)
    rw [if_pos h0, ← hsp]
  · rw [if_neg h0]

/-! ### The native-integer constructor -/

theorem natGroupsF_spec (f : Nat) : ∀ n, n ≤ f →
    val (natGroupsF f n) = n ∧ DigOK (natGroupsF f n) ∧ Trimmed (natGroupsF f n) := by
  induction f with
  | zero =>
      intro n hn
      have : n = 0 := by omega
      subst this
      refine ⟨by simp [natGroupsF, val], ?_, by simp [natGroupsF, Trimmed]⟩
      intro d hd
      simp [natGroupsF] at hd
      omega
  | succ g ih =>
      intro n hn
      rw [natGroupsF]
      by_cases h : n < 100
      · rw [if_pos h]
        refine ⟨by simp [val], ?_, ?_⟩
        · intro d hd
          simp at hd
          omega
        · refine ⟨by simp, fun h0 => ?_⟩
          simp at h0
          simp [h0]
      · rw [if_neg h]
        have hdiv : n / 100 ≤ g := by
          have := Nat.div_lt_self (show 0 < n by omega) (show 1 < 100 by omega)
          omega
        have hrec := ih (n / 100) hdiv
        refine ⟨?_, ?_, ?_⟩
        · simp only [val, hrec.1]
          omega
        · intro d hd
          rcases List.mem_cons.mp hd with rfl | hd2
          · exact Nat.mod_lt _ (by omega)
          · exact hrec.2.1 d hd2
        · refine ⟨by simp, fun h0 => ?_⟩
          exfalso
          rw [getLast?_cons_ne_nil _ _ hrec.2.2.1] at h0
          have := hrec.2.2.2 h0
          have hv := hrec.1
          rw [this] at hv
          simp [val] at hv
          omega

theorem natGroups_spec (n : Nat) :
    val (natGroups n) = n ∧ DigOK (natGroups n) ∧ Trimmed (natGroups n) :=
  natGroupsF_spec n n (by omega)

theorem fromInt_spec (v : Int) :
    Canon (fromInt v) ∧ toInt (fromInt v) = v ∧
    ((fromInt v).sign = Sign.minus ↔ v < 0) ∧
    (v = 0 → fromInt v = { a := [0], sign := Sign.plus }) := by
  have hN := natGroups_spec v.natAbs
  have hsign : (fromInt v).sign = sgn v := rfl
  have hva : val (fromInt v).a = v.natAbs := hN.1
  refine ⟨⟨hN.2.1, hN.2.2, ?_⟩, ?_, ?_, ?_⟩
  · intro h0
    rw [hva] at h0
    have : v = 0 := by omega
    rw [hsign, this]
    rfl
  · by_cases hv : 0 ≤ v
    · have hgn : sgn v = Sign.plus := by rw [sgn, if_pos hv]
      rw [toInt, hsign, hgn]
      simp only [hva]
      have habs : (v.natAbs : Int) = v := Int.natAbs_of_nonneg hv
      omega
    · have hgn : sgn v = Sign.minus := by rw [sgn, if_neg hv]
      rw [toInt, hsign, hgn]
      simp only [hva]
      have habs : (v.natAbs : Int) = -v := Int.ofNat_natAbs_of_nonpos (by omega)
      omega
  · rw [hsign, sgn]
    by_cases hv : 0 ≤ v
    · rw [if_pos hv]
      constructor
      · intro h
        exact absurd h (by intro hc; cases hc)
      · intro h
        omega
    · rw [if_neg hv]
      constructor
      · intro _
        omega
      · intro _
        rfl
  · intro hv
    subst hv
    rfl

/-! ### Claims -/

/-- Claim C2 (code bug): division by a zero divisor does not signal any
error — it silently terminates and returns a well-defined garbage value:
the quotient digits all come out as 9, so `BigInteger(1) / BigInteger(0)`
is `BigInteger(999)` (and `0 / 0` as well), while `1 % 0` silently
returns `1`.  This contradicts the specification's requirement that
division or modulo by zero be fatal to the operation. -/
theorem division_by_zero_silently_returns :
    bigDiv (fromInt 1) (fromInt 0) = fromInt 999 ∧
    bigDiv (fromInt 0) (fromInt 0) = fromInt 999 ∧
    bigMod (fromInt 1) (fromInt 0) = fromInt 1 := by
  decide

/-- Claim C4 (code bug): the parse constructor does not collapse the sign
on zero: parsing the valid decimal string `"-0"` yields digits `[0]` with
sign `minus`, a non-canonical value, and formatting it reproduces `"-0"`
instead of the canonical form `"0"`. -/
theorem parse_neg_zero_not_canonical :
    parse { neg := true, digs := [0] } = { a := [0], sign := Sign.minus } ∧
    toDec (parse { neg := true, digs := [0] }) = { neg := true, digs := [0] } ∧
    ¬ Canon (parse { neg := true, digs := [0] }) := by
  decide

/-- Claim C5: for every canonical `BigInteger` value `x`, parsing the
string produced by `toString` yields a value equal to `x` under the
engine's `operator==`. -/
theorem toString_parse_roundtrip (x : BigInteger) (hx : Canon x) :
    bigEq (parse (toDec x)) x = true := by
  have hT := toDec_spec x hx.1 hx.2.1
  have hValid : ValidDec (toDec x) := ⟨hT.2.2, hT.2.1⟩
  have hP := parse_spec (toDec x) hValid
  have hlists : (parse (toDec x)).a = x.a :=
    val_inj _ _ hP.2.1 hP.2.2.1 hx.1 hx.2.1 (by rw [hP.1, hT.1])
  have hsg : (parse (toDec x)).sign = x.sign := by
    have hneg : (toDec x).neg = decide (x.sign = Sign.minus) := rfl
    rw [hP.2.2.2, hneg]
    rcases hxs : x.sign with _ | _ <;> simp
  rw [bigEq_iff]
  cases hp : parse (toDec x) with
  | mk a s =>
      rw [hp] at hlists hsg
      cases x with
      | mk a2 s2 => exact congrArg₂ BigInteger.mk hlists hsg

/-- Claim C7: for all canonical `BigInteger` values `a` and `b`, adding
`b` and then subtracting `b` returns the original value:
`a + b - b == a`. -/
theorem add_sub_cancel_bigint (a b : BigInteger) (ha : Canon a) (hb : Canon b) :
    bigEq (bigSub (bigAdd a b) b) a = true := by
  have hA := bigAdd_correct a b ha.1 ha.2.1 ha.2.2 hb.1 hb.2.1
  have hS := bigSub_correct (bigAdd a b) b hA.2.1 hA.2.2.1 hA.2.2.2 hb.1 hb.2.1
  rw [bigEq_iff]
  refine toInt_inj _ _ hS.2 ha ?_
  rw [hS.1, hA.1]
  ring

/-- Claim C8: multiplication of canonical `BigInteger` values is
commutative: `a * b == b * a` — the convolution product together with its
sign rule is symmetric in the two operands. -/
theorem mul_comm_bigint (a b : BigInteger) (ha : Canon a) (hb : Canon b) :
    bigEq (bigMul a b) (bigMul b a) = true := by
  have h1 := bigMul_correct a b ha.1 ha.2.1 hb.1 hb.2.1
  have h2 := bigMul_correct b a hb.1 hb.2.1 ha.1 ha.2.1
  rw [bigEq_iff]
  refine toInt_inj _ _ h1.2 h2.2 ?_
  rw [h1.1, h2.1]
  ring

/-- Claim C10: the constructor from a native machine integer takes the
absolute value of its argument and splits it into base-100 groups; for
every `int` value above `INT_MIN` it produces the canonical
representation of that value — sign `minus` exactly when the argument is
negative, zero mapping to sign `plus` with digits `[0]` — as `INT_MIN`
itself has no representable absolute value. -/
theorem int_constructor_canonical (v : Int)
    (hmin : -(2 ^ 31) < v) (hmax : v < 2 ^ 31) :
    Canon (fromInt v) ∧ toInt (fromInt v) = v ∧
    ((fromInt v).sign = Sign.minus ↔ v < 0) ∧
    (v = 0 → fromInt v = { a := [0], sign := Sign.plus }) :=
  fromInt_spec v

/-- Witness for C10 at the concrete input `-12345`. -/
theorem int_constructor_canonical_witness :
    Canon (fromInt (-12345)) ∧ toInt (fromInt (-12345)) = -12345 ∧
    ((fromInt (-12345)).sign = Sign.minus ↔ (-12345 : Int) < 0) ∧
    ((-12345 : Int) = 0 → fromInt (-12345) = { a := [0], sign := Sign.plus }) :=
  int_constructor_canonical (-12345) (by decide) (by decide)

/-- Witness for C5 at the concrete input `-10203`. -/
theorem toString_parse_roundtrip_witness :
    bigEq (parse (toDec (fromInt (-10203)))) (fromInt (-10203)) = true :=
  toString_parse_roundtrip (fromInt (-10203)) (by decide)

/-- Witness for C7 at the concrete inputs `-5` and `100000`. -/
theorem add_sub_cancel_bigint_witness :
    bigEq (bigSub (bigAdd (fromInt (-5)) (fromInt 100000)) (fromInt 100000))
      (fromInt (-5)) = true :=
  add_sub_cancel_bigint (fromInt (-5)) (fromInt 100000) (by decide) (by decide)

/-- Witness for C8 at the concrete inputs `-407` and `98`. -/
theorem mul_comm_bigint_witness :
    bigEq (bigMul (fromInt (-407)) (fromInt 98))
      (bigMul (fromInt 98) (fromInt (-407))) = true :=
  mul_comm_bigint (fromInt (-407)) (fromInt 98) (by decide) (by decide)

/-- Claim C1: for all canonical `BigInteger` values `a` and `b` with
`b ≠ 0`, division and modulo satisfy `(a / b) * b + (a % b) == a` (the
engine's own `operator==`), the remainder's magnitude is strictly smaller
than the divisor's, the quotient truncates toward zero (it equals
`Int.tdiv` of the denoted integers, e.g. `-7 / 2 = -3`), and a nonzero
remainder carries the sign of the dividend (e.g. `-7 % 2 = -1`). -/
theorem bigint_div_mod_spec (a b : BigInteger) (ha : Canon a) (hb : Canon b)
    (hb0 : toInt b ≠ 0) :
    bigEq (bigAdd (bigMul (bigDiv a b) b) (bigMod a b)) a = true ∧
    (toInt (bigMod a b)).natAbs < (toInt b).natAbs ∧
    toInt (bigDiv a b) = (toInt a).tdiv (toInt b) ∧
    (toInt (bigMod a b) ≠ 0 → (toInt (bigMod a b)).sign = (toInt a).sign) := by
  have hvb : val b.a ≠ 0 := by
    intro h
    apply hb0
    rw [toInt, h]
    simp
  have hD := bigDiv_correct a b ha hb hvb
  have hM := bigMul_correct (bigDiv a b) b hD.2.1.1 hD.2.1.2.1 hb.1 hb.2.1
  have hMod := bigMod_correct a b ha hb hvb
  have hS := bigSub_correct a (bigMul (bigDiv a b) b) ha.1 ha.2.1 ha.2.2
    hM.2.1 hM.2.2.1
  have hModSub : bigMod a b = bigSub a (bigMul (bigDiv a b) b) :=
    bigMod_eq_sub a b hS.2
  have hA := bigAdd_correct (bigMul (bigDiv a b) b) (bigMod a b)
    hM.2.1 hM.2.2.1 hM.2.2.2 hMod.2.1.1 hMod.2.1.2.1
  refine ⟨?_, ?_, hD.1, ?_⟩
  · rw [bigEq_iff]
    refine toInt_inj _ _ hA.2 ha ?_
    rw [hA.1, hModSub, hS.1]
    ring
  · rw [toInt_natAbs, toInt_natAbs, hMod.2.2]
    exact Nat.mod_lt _ (Nat.pos_of_ne_zero hvb)
  · intro hne
    have hm0 : val a.a % val b.a ≠ 0 := by
      intro h
      apply hne
      rw [hMod.1, h]
      simp
    have hva0 : val a.a ≠ 0 := by
      intro h
      apply hm0
      rw [h]
      simp
    rcases has : a.sign with _ | _
    · have h1 : 0 < toInt (bigMod a b) := by
        rw [hMod.1, has]
        have : (0:Int) < ((val a.a % val b.a : Nat) : Int) := by
          exact_mod_cast Nat.pos_of_ne_zero hm0
        simpa using this
      have h2 : 0 < toInt a := by
        rw [toInt_plus a has]
        exact_mod_cast Nat.pos_of_ne_zero hva0
      rw [Int.sign_eq_one_iff_pos.mpr h1, Int.sign_eq_one_iff_pos.mpr h2]
    · have h1 : toInt (bigMod a b) < 0 := by
        rw [hMod.1, has]
        have : (0:Int) < ((val a.a % val b.a : Nat) : Int) := by
          exact_mod_cast Nat.pos_of_ne_zero hm0
        simp
        omega
      have h2 : toInt a < 0 := by
        rw [toInt_minus a has]
        have : (0:Int) < ((val a.a : Nat) : Int) := by
          exact_mod_cast Nat.pos_of_ne_zero hva0
        omega
      rw [Int.sign_eq_neg_one_iff_neg.mpr h1, Int.sign_eq_neg_one_iff_neg.mpr h2]

/-- Witness for C1 at the concrete inputs `-7` and `2` (quotient `-3`,
remainder `-1`). -/
theorem bigint_div_mod_spec_witness :
    bigEq (bigAdd (bigMul (bigDiv (fromInt (-7)) (fromInt 2)) (fromInt 2))
        (bigMod (fromInt (-7)) (fromInt 2))) (fromInt (-7)) = true ∧
    (toInt (bigMod (fromInt (-7)) (fromInt 2))).natAbs
      < (toInt (fromInt 2)).natAbs ∧
    toInt (bigDiv (fromInt (-7)) (fromInt 2))
      = (toInt (fromInt (-7))).tdiv (toInt (fromInt 2)) ∧
    (toInt (bigMod (fromInt (-7)) (fromInt 2)) ≠ 0 →
      (toInt (bigMod (fromInt (-7)) (fromInt 2))).sign
        = (toInt (fromInt (-7))).sign) :=
  bigint_div_mod_spec (fromInt (-7)) (fromInt 2) (by decide) (by decide) (by decide)

/-- Claim C9: every mutating arithmetic operation, applied to canonical
operands, re-establishes invariants I1 and I2 (trimmed digit groups in
range, zero carrying sign `plus`) before returning. -/
theorem arithmetic_preserves_invariants (x y : BigInteger)
    (hx : Canon x) (hy : Canon y) :
    Canon (bigAdd x y) ∧ Canon (bigSub x y) ∧ Canon (bigMul x y) ∧
    Canon (bigDiv x y) ∧ Canon (bigMod x y) ∧ Canon (bigInc x) ∧
    Canon (bigDec x) ∧ Canon (bigNeg x) := by
  have h1 := fromInt_spec 1
  have hAdd := (bigAdd_correct x y hx.1 hx.2.1 hx.2.2 hy.1 hy.2.1).2
  have hSub := (bigSub_correct x y hx.1 hx.2.1 hx.2.2 hy.1 hy.2.1).2
  have hMul := (bigMul_correct x y hx.1 hx.2.1 hy.1 hy.2.1).2
  have hDiv := bigDiv_canon x y
  have hProd := (bigMul_correct (bigDiv x y) y hDiv.1 hDiv.2.1 hy.1 hy.2.1).2
  have hR := (bigSub_correct x (bigMul (bigDiv x y) y) hx.1 hx.2.1 hx.2.2
    hProd.1 hProd.2.1).2
  have hMod : Canon (bigMod x y) := by
    rw [bigMod_eq_sub x y hR]
    exact hR
  have hInc := (bigAdd_correct x (fromInt 1) hx.1 hx.2.1 hx.2.2
    h1.1.1 h1.1.2.1).2
  have hDec := (bigSub_correct x (fromInt 1) hx.1 hx.2.1 hx.2.2
    h1.1.1 h1.1.2.1).2
  have hNeg : Canon (bigNeg x) := by
    rw [bigNeg]
    by_cases h0 : x.a = [0]
    · rw [if_pos h0]
      exact hx
    · rw [if_neg h0]
      refine ⟨hx.1, hx.2.1, fun hv => ?_⟩
      exact absurd (trimmed_val_zero _ hx.2.1 hv) h0
  exact ⟨hAdd, hSub, hMul, hDiv, hMod, hInc, hDec, hNeg⟩

/-- Witness for C9 at the concrete inputs `-100` and `37`. -/
theorem arithmetic_preserves_invariants_witness :
    Canon (bigAdd (fromInt (-100)) (fromInt 37)) ∧
    Canon (bigSub (fromInt (-100)) (fromInt 37)) ∧
    Canon (bigMul (fromInt (-100)) (fromInt 37)) ∧
    Canon (bigDiv (fromInt (-100)) (fromInt 37)) ∧
    Canon (bigMod (fromInt (-100)) (fromInt 37)) ∧
    Canon (bigInc (fromInt (-100))) ∧
    Canon (bigDec (fromInt (-100))) ∧
    Canon (bigNeg (fromInt (-100))) :=
  arithmetic_preserves_invariants (fromInt (-100)) (fromInt 37)
    (by decide) (by decide)

/-! ### gcd and the Rational layer -/

theorem gcdFuel_spec (f : Nat) : ∀ (a b : BigInteger),
    Canon a → a.sign = Sign.plus → Canon b → b.sign = Sign.plus →
    val b.a < f →
    Canon (gcdFuel f a b) ∧ (gcdFuel f a b).sign = Sign.plus ∧
    val (gcdFuel f a b).a = Nat.gcd (val a.a) (val b.a) := by
  induction f with
  | zero =>
      intro a b _ _ _ _ hlt
      exact absurd hlt (Nat.not_lt_zero _)
  | succ g ih =>
      intro a b ha has hb hbs hlt
      rw [gcdFuel]
      by_cases h0 : b.a = [0]
      · rw [if_pos h0]
        have : val b.a = 0 := by rw [h0]; rfl
        rw [this, Nat.gcd_zero_right]
        exact ⟨ha, has, rfl⟩
      · rw [if_neg h0]
        have hvb : val b.a ≠ 0 := val_ne_zero_of_trimmed b.a hb.2.1 h0
        have hMod := bigMod_correct a b ha hb hvb
        have hmpos : 0 ≤ toInt (bigMod a b) := by
          rw [hMod.1, has]
          have : (0:Int) ≤ ((val a.a % val b.a : Nat) : Int) := by positivity
          simpa using this
        have hmsign : (bigMod a b).sign = Sign.plus :=
          sign_plus_of_nonneg _ hMod.2.1 hmpos
        have hmlt : val (bigMod a b).a < g := by
          rw [hMod.2.2]
          have := Nat.mod_lt (val a.a) (Nat.pos_of_ne_zero hvb)
          omega
        have hrec := ih b (bigMod a b) hb hbs hMod.2.1 hmsign hmlt
        refine ⟨hrec.1, hrec.2.1, ?_⟩
        rw [hrec.2.2, hMod.2.2]
        rw [Nat.gcd_comm (val b.a) (val a.a % val b.a), ← Nat.gcd_rec, Nat.gcd_comm]

theorem bigGcd_spec (a b : BigInteger) (ha : Canon a) (has : a.sign = Sign.plus)
    (hb : Canon b) (hbs : b.sign = Sign.plus) :
    Canon (bigGcd a b) ∧ (bigGcd a b).sign = Sign.plus ∧
    val (bigGcd a b).a = Nat.gcd (val a.a) (val b.a) :=
  gcdFuel_spec (val b.a + 1) a b ha has hb hbs (by omega)

theorem normalize_spec (r : Rational) (hnum : Canon r.numerator)
    (hden : Canon r.denominator) (hdsign : r.denominator.sign = Sign.plus)
    (hd0 : val r.denominator.a ≠ 0) : RatOK r.normalize := by
  have hnumP : Canon ({ r.numerator with sign := Sign.plus } : BigInteger) :=
    ⟨hnum.1, hnum.2.1, fun _ => rfl⟩
  have hG := bigGcd_spec ({ r.numerator with sign := Sign.plus } : BigInteger)
    r.denominator hnumP rfl hden hdsign
  have hvg : val (bigGcd ({ r.numerator with sign := Sign.plus } : BigInteger)
      r.denominator).a = Nat.gcd (val r.numerator.a) (val r.denominator.a) := hG.2.2
  have hgpos : 0 < val (bigGcd ({ r.numerator with sign := Sign.plus } : BigInteger)
      r.denominator).a := by
    rw [hvg]
    exact Nat.gcd_pos_of_pos_right _ (Nat.pos_of_ne_zero hd0)
  rw [Rational.normalize]
  by_cases h1 : (bigGcd ({ r.numerator with sign := Sign.plus } : BigInteger)
      r.denominator).a = [1]
  · rw [if_pos h1]
    have hg1 : Nat.gcd (val r.numerator.a) (val r.denominator.a) = 1 := by
      rw [← hvg, h1]
      simp [val]
    refine ⟨hnumP, hden, rfl, hdsign, hd0, hg1, fun h0 => ?_⟩
    have hd1 : val r.denominator.a = 1 := by
      rw [← hg1, h0, Nat.gcd_zero_left]
    refine ⟨hd1, ?_⟩
    have hz : r.numerator.a = [0] := trimmed_val_zero _ hnum.2.1 h0
    show (if ({ r.numerator with sign := Sign.plus } : BigInteger).a = [0]
        then Sign.plus else _) = Sign.plus
    rw [if_pos hz]
  · rw [if_neg h1]
    have hvg1 : val (bigGcd ({ r.numerator with sign := Sign.plus } : BigInteger)
        r.denominator).a ≠ 0 := by omega
    have hDnum := bigDiv_correct ({ r.numerator with sign := Sign.plus } : BigInteger)
      _ hnumP hG.1 hvg1
    have hDden := bigDiv_correct r.denominator _ hden hG.1 hvg1
    have hnum'P : (bigDiv ({ r.numerator with sign := Sign.plus } : BigInteger)
        (bigGcd ({ r.numerator with sign := Sign.plus } : BigInteger)
          r.denominator)).sign = Sign.plus := by
      refine sign_plus_of_nonneg _ hDnum.2.1 ?_
      rw [hDnum.1, toInt_plus _ rfl, toInt_plus _ hG.2.1, natCast_tdiv]
      positivity
    have hden'P : (bigDiv r.denominator
        (bigGcd ({ r.numerator with sign := Sign.plus } : BigInteger)
          r.denominator)).sign = Sign.plus := by
      refine sign_plus_of_nonneg _ hDden.2.1 ?_
      rw [hDden.1, toInt_plus _ hdsign, toInt_plus _ hG.2.1, natCast_tdiv]
      positivity
    have hdvd_num : val (bigGcd ({ r.numerator with sign := Sign.plus } : BigInteger)
        r.denominator).a ∣ val r.numerator.a := by
      rw [hvg]
      exact Nat.gcd_dvd_left _ _
    have hdvd_den : val (bigGcd ({ r.numerator with sign := Sign.plus } : BigInteger)
        r.denominator).a ∣ val r.denominator.a := by
      rw [hvg]
      exact Nat.gcd_dvd_right _ _
    have hden'0 : val (bigDiv r.denominator
        (bigGcd ({ r.numerator with sign := Sign.plus } : BigInteger)
          r.denominator)).a ≠ 0 := by
      rw [hDden.2.2]
      have := Nat.le_of_dvd (Nat.pos_of_ne_zero hd0) hdvd_den
      have := Nat.div_pos this hgpos
      omega
    have hcop : Nat.gcd
        (val (bigDiv ({ r.numerator with sign := Sign.plus } : BigInteger)
          (bigGcd ({ r.numerator with sign := Sign.plus } : BigInteger)
            r.denominator)).a)
        (val (bigDiv r.denominator
          (bigGcd ({ r.numerator with sign := Sign.plus } : BigInteger)
            r.denominator)).a) = 1 := by
      rw [hDnum.2.2, hDden.2.2, hvg]
      exact Nat.coprime_div_gcd_div_gcd (by rw [← hvg]; exact hgpos)
    refine ⟨hDnum.2.1, hDden.2.1, hnum'P, hden'P, hden'0, hcop, fun h0 => ?_⟩
    have hn0 : val r.numerator.a = 0 := by
      rw [hDnum.2.2] at h0
      rcases hdvd_num with ⟨k, hk⟩
      rw [hk, Nat.mul_div_cancel_left _ hgpos] at h0
      rw [hk, h0]
      ring
    have hgd : val (bigGcd ({ r.numerator with sign := Sign.plus } : BigInteger)
        r.denominator).a = val r.denominator.a := by
      rw [hvg, hn0, Nat.gcd_zero_left]
    refine ⟨?_, ?_⟩
    · rw [hDden.2.2, hgd, Nat.div_self (Nat.pos_of_ne_zero hd0)]
    · have hz : r.numerator.a = [0] := trimmed_val_zero _ hnum.2.1 hn0
      show (if ({ r.numerator with sign := Sign.plus } : BigInteger).a = [0]
          then Sign.plus else _) = Sign.plus
      rw [if_pos hz]

theorem bigMul_pos (a b : BigInteger) (ha : Canon a) (hb : Canon b)
    (has : a.sign = Sign.plus) (hbs : b.sign = Sign.plus) :
    (bigMul a b).sign = Sign.plus ∧ val (bigMul a b).a = val a.a * val b.a := by
  have hM := bigMul_correct a b ha.1 ha.2.1 hb.1 hb.2.1
  have htoint : toInt (bigMul a b) = (val a.a : Int) * val b.a := by
    rw [hM.1, toInt_plus a has, toInt_plus b hbs]
  constructor
  · refine sign_plus_of_nonneg _ hM.2 ?_
    rw [htoint]
    positivity
  · have h1 := toInt_natAbs (bigMul a b)
    rw [htoint] at h1
    have h2 : ((val a.a : Int) * (val b.a : Int)).natAbs = val a.a * val b.a := by
      rw [Int.natAbs_mul]
      simp
    omega

theorem ratOfBig_ok (x : BigInteger) (hx : Canon x) : RatOK (ratOfBig x) := by
  have h1 := fromInt_spec 1
  have hv1 : val (fromInt 1).a = 1 := by decide
  refine ⟨⟨hx.1, hx.2.1, fun _ => rfl⟩, h1.1, rfl, rfl, ?_, ?_, ?_⟩
  · have hv1b : val (ratOfBig x).denominator.a = 1 := hv1
    omega
  · have hv1b : val (ratOfBig x).denominator.a = 1 := hv1
    rw [hv1b, Nat.gcd_one_right]
  · intro h0
    have hv1b : val (ratOfBig x).denominator.a = 1 := hv1
    exact ⟨hv1b, hx.2.2 h0⟩

theorem ratZero_ok : RatOK ratZero := by decide

theorem ratMul_ok (r x : Rational) (hr : RatOK r) (hx : RatOK x) :
    RatOK (ratMul r x) := by
  rw [ratMul]
  have hden := bigMul_pos r.denominator x.denominator hr.2.1 hx.2.1
    hr.2.2.2.1 hx.2.2.2.1
  refine normalize_spec _ ?_ ?_ hden.1 ?_
  · exact (bigMul_correct r.numerator x.numerator hr.1.1 hr.1.2.1
      hx.1.1 hx.1.2.1).2
  · exact (bigMul_correct r.denominator x.denominator hr.2.1.1 hr.2.1.2.1
      hx.2.1.1 hx.2.1.2.1).2
  · rw [hden.2]
    exact Nat.mul_ne_zero hr.2.2.2.2.1 hx.2.2.2.2.1

theorem ratAdd_ok (r x : Rational) (hr : RatOK r) (hx : RatOK x) :
    RatOK (ratAdd r x) := by
  have hnum0 : Canon ({ r.numerator with sign := r.sign } : BigInteger) := by
    refine ⟨hr.1.1, hr.1.2.1, fun h0 => ?_⟩
    exact (hr.2.2.2.2.2.2 h0).2
  have hnum1 := bigMul_correct ({ r.numerator with sign := r.sign } : BigInteger)
    x.denominator hnum0.1 hnum0.2.1 hx.2.1.1 hx.2.1.2.1
  have hprod := bigMul_correct x.numerator r.denominator hx.1.1 hx.1.2.1
    hr.2.1.1 hr.2.1.2.1
  have hnum2 : Canon (if x.sign = Sign.plus
      then bigAdd (bigMul ({ r.numerator with sign := r.sign } : BigInteger)
        x.denominator) (bigMul x.numerator r.denominator)
      else bigSub (bigMul ({ r.numerator with sign := r.sign } : BigInteger)
        x.denominator) (bigMul x.numerator r.denominator)) := by
    by_cases hxs : x.sign = Sign.plus
    · rw [if_pos hxs]
      exact (bigAdd_correct _ _ hnum1.2.1 hnum1.2.2.1 hnum1.2.2.2
        hprod.2.1 hprod.2.2.1).2
    · rw [if_neg hxs]
      exact (bigSub_correct _ _ hnum1.2.1 hnum1.2.2.1 hnum1.2.2.2
        hprod.2.1 hprod.2.2.1).2
  have hden := bigMul_pos r.denominator x.denominator hr.2.1 hx.2.1
    hr.2.2.2.1 hx.2.2.2.1
  have hdenC := (bigMul_correct r.denominator x.denominator hr.2.1.1 hr.2.1.2.1
    hx.2.1.1 hx.2.1.2.1).2
  have hd0 : val (bigMul r.denominator x.denominator).a ≠ 0 := by
    rw [hden.2]
    exact Nat.mul_ne_zero hr.2.2.2.2.1 hx.2.2.2.2.1
  rw [ratAdd]
  exact normalize_spec _ hnum2 hdenC hden.1 hd0

theorem ratSub_ok (r x : Rational) (hr : RatOK r) (hx : RatOK x) :
    RatOK (ratSub r x) := by
  have hnum0 : Canon ({ r.numerator with sign := r.sign } : BigInteger) := by
    refine ⟨hr.1.1, hr.1.2.1, fun h0 => ?_⟩
    exact (hr.2.2.2.2.2.2 h0).2
  have hnum1 := bigMul_correct ({ r.numerator with sign := r.sign } : BigInteger)
    x.denominator hnum0.1 hnum0.2.1 hx.2.1.1 hx.2.1.2.1
  have hprod := bigMul_correct x.numerator r.denominator hx.1.1 hx.1.2.1
    hr.2.1.1 hr.2.1.2.1
  have hnum2 : Canon (if x.sign = Sign.plus
      then bigSub (bigMul ({ r.numerator with sign := r.sign } : BigInteger)
        x.denominator) (bigMul x.numerator r.denominator)
      else bigAdd (bigMul ({ r.numerator with sign := r.sign } : BigInteger)
        x.denominator) (bigMul x.numerator r.denominator)) := by
    by_cases hxs : x.sign = Sign.plus
    · rw [if_pos hxs]
      exact (bigSub_correct _ _ hnum1.2.1 hnum1.2.2.1 hnum1.2.2.2
        hprod.2.1 hprod.2.2.1).2
    · rw [if_neg hxs]
      exact (bigAdd_correct _ _ hnum1.2.1 hnum1.2.2.1 hnum1.2.2.2
        hprod.2.1 hprod.2.2.1).2
  have hden := bigMul_pos r.denominator x.denominator hr.2.1 hx.2.1
    hr.2.2.2.1 hx.2.2.2.1
  have hdenC := (bigMul_correct r.denominator x.denominator hr.2.1.1 hr.2.1.2.1
    hx.2.1.1 hx.2.1.2.1).2
  have hd0 : val (bigMul r.denominator x.denominator).a ≠ 0 := by
    rw [hden.2]
    exact Nat.mul_ne_zero hr.2.2.2.2.1 hx.2.2.2.2.1
  rw [ratSub]
  exact normalize_spec _ hnum2 hdenC hden.1 hd0

theorem ratDiv_ok (r x : Rational) (hr : RatOK r) (hx : RatOK x)
    (hx0 : val x.numerator.a ≠ 0) : RatOK (ratDiv r x) := by
  rw [ratDiv]
  have hden := bigMul_pos r.denominator x.numerator hr.2.1 hx.1
    hr.2.2.2.1 hx.2.2.1
  refine normalize_spec _ ?_ ?_ hden.1 ?_
  · exact (bigMul_correct r.numerator x.denominator hr.1.1 hr.1.2.1
      hx.2.1.1 hx.2.1.2.1).2
  · exact (bigMul_correct r.denominator x.numerator hr.2.1.1 hr.2.1.2.1
      hx.1.1 hx.1.2.1).2
  · rw [hden.2]
    exact Nat.mul_ne_zero hr.2.2.2.2.1 hx0

theorem ratNeg_ok (r : Rational) (hr : RatOK r) : RatOK (ratNeg r) := by
  rw [ratNeg]
  exact normalize_spec _ hr.1 hr.2.1 hr.2.2.2.1 hr.2.2.2.2.1

/-- Claim C3 (counterexample): dividing by the zero Rational returns with
a zero denominator, so invariant I3 does not hold after every `/=` —
`Rational(1) /= Rational(0)` leaves denominator `0`. -/
theorem rational_div_by_zero_breaks_I3 :
    ¬ I3 (ratDiv (ratOfBig (fromInt 1)) (ratOfBig (fromInt 0))) := by
  decide

/-- Claim C3 (amended): after every public Rational operation —
construction from a `BigInteger` (hence from an `int`), the default
constructor, `+=`, `-=`, `*=`, unary negation, and `/=` whenever the
divisor is nonzero — the state satisfies invariant I3 on canonical parts:
the numerator's sign is `plus`, the denominator is positive and nonzero,
numerator and denominator are coprime (zero being `0 / 1`), and the
fraction's sign is `plus` whenever the value is zero.  (Division by a
zero Rational violates I3, see the counterexample.) -/
theorem rational_ops_preserve_I3 :
    RatOK ratZero ∧
    (∀ n : BigInteger, Canon n → RatOK (ratOfBig n)) ∧
    (∀ r x : Rational, RatOK r → RatOK x →
      RatOK (ratAdd r x) ∧ RatOK (ratSub r x) ∧ RatOK (ratMul r x) ∧
      RatOK (ratNeg r) ∧ (val x.numerator.a ≠ 0 → RatOK (ratDiv r x))) :=
  ⟨ratZero_ok, ratOfBig_ok, fun r x hr hx =>
    ⟨ratAdd_ok r x hr hx, ratSub_ok r x hr hx, ratMul_ok r x hr hx,
     ratNeg_ok r hr, fun h0 => ratDiv_ok r x hr hx h0⟩⟩

/-- Witness for C3 at the concrete inputs `6` and `4` (the quotient
normalizes to `3/2`). -/
theorem rational_ops_preserve_I3_witness :
    RatOK (ratDiv (ratOfBig (fromInt 6)) (ratOfBig (fromInt 4))) :=
  (rational_ops_preserve_I3.2.2 (ratOfBig (fromInt 6)) (ratOfBig (fromInt 4))
    (by decide) (by decide)).2.2.2.2 (by decide)

/-- Claim C6 (counterexample): rendering an integer-valued Rational with
precision 0 does not reproduce the integer's textual form — `asDecimal`
always appends the decimal point, so `Rational(1).asDecimal(0)` is
`"1."`, not `"1"`. -/
theorem asDecimal_zero_ne_toString :
    asDecimal (ratOfBig (fromInt 1)) 0 ≠ (toDec (fromInt 1)).render := by
  decide

theorem asDecimal_zero_eq (r : Rational) :
    asDecimal r 0
      = (if r.sign = Sign.minus then ['-'] else [])
        ++ (if (toDec (bigDiv (bigMul r.numerator (parse { neg := false, digs := [1] })) r.denominator)).render.length - 0 = 0 then ['0'] else [])
        ++ (toDec (bigDiv (bigMul r.numerator (parse { neg := false, digs := [1] })) r.denominator)).render.take ((toDec (bigDiv (bigMul r.numerator (parse { neg := false, digs := [1] })) r.denominator)).render.length - 0)
        ++ ['.']
        ++ List.replicate (0 - ((toDec (bigDiv (bigMul r.numerator (parse { neg := false, digs := [1] })) r.denominator)).render.length - ((toDec (bigDiv (bigMul r.numerator (parse { neg := false, digs := [1] })) r.denominator)).render.length - 0))) '0'
        ++ ((toDec (bigDiv (bigMul r.numerator (parse { neg := false, digs := [1] })) r.denominator)).render.drop ((toDec (bigDiv (bigMul r.numerator (parse { neg := false, digs := [1] })) r.denominator)).render.length - 0)).take 0 := rfl

/-- Claim C6 (amended): for every canonical `BigInteger` value `n`,
`Rational(n).asDecimal(0)` equals `n.toString()` followed by a trailing
decimal point: the rendering is the integer's own textual form plus
`'.'`. -/
theorem asDecimal_zero_eq_toString_dot (n : BigInteger) (hn : Canon n) :
    asDecimal (ratOfBig n) 0 = (toDec n).render ++ ['.'] := by
  have hnumC : Canon ((ratOfBig n).numerator) := ⟨hn.1, hn.2.1, fun _ => rfl⟩
  have honeC : Canon ({ a := [1], sign := Sign.plus } : BigInteger) := by decide
  have hone : (parse { neg := false, digs := [1] } : BigInteger)
      = { a := [1], sign := Sign.plus } := by decide
  have hM := bigMul_pos (ratOfBig n).numerator { a := [1], sign := Sign.plus }
    hnumC honeC rfl rfl
  have hMC := (bigMul_correct (ratOfBig n).numerator
    { a := [1], sign := Sign.plus } hnumC.1 hnumC.2.1 honeC.1 honeC.2.1).2
  have hMval : val (bigMul (ratOfBig n).numerator
      { a := [1], sign := Sign.plus }).a = val n.a := by
    rw [hM.2]
    show val n.a * val [1] = val n.a
    simp [val]
  have hdenC : Canon ((ratOfBig n).denominator) := (fromInt_spec 1).1
  have hden1 : val ((ratOfBig n).denominator).a = 1 := by
    show val (fromInt 1).a = 1
    decide
  have hD := bigDiv_correct
    (bigMul (ratOfBig n).numerator { a := [1], sign := Sign.plus })
    ((ratOfBig n).denominator) hMC hdenC (by omega)
  have hDval : val (bigDiv (bigMul (ratOfBig n).numerator
      { a := [1], sign := Sign.plus }) ((ratOfBig n).denominator)).a
      = val n.a := by
    rw [hD.2.2, hMval, hden1, Nat.div_one]
  have hDsign : (bigDiv (bigMul (ratOfBig n).numerator
      { a := [1], sign := Sign.plus }) ((ratOfBig n).denominator)).sign
      = Sign.plus := by
    refine sign_plus_of_nonneg _ hD.2.1 ?_
    have hds : ((ratOfBig n).denominator).sign = Sign.plus := rfl
    rw [hD.1, toInt_plus _ hM.1, toInt_plus _ hds, natCast_tdiv]
    exact Int.natCast_nonneg _
  have hDa : (bigDiv (bigMul (ratOfBig n).numerator
      { a := [1], sign := Sign.plus }) ((ratOfBig n).denominator)).a = n.a :=
    val_inj _ _ hD.2.1.1 hD.2.1.2.1 hn.1 hn.2.1 hDval
  have hBD : bigDiv (bigMul (ratOfBig n).numerator
      (parse { neg := false, digs := [1] })) ((ratOfBig n).denominator)
      = ({ a := n.a, sign := Sign.plus } : BigInteger) := by
    rw [hone]
    exact congrArg₂ BigInteger.mk hDa hDsign
  have hrend : (toDec ({ a := n.a, sign := Sign.plus } : BigInteger)).render
      = (toDec n).digs.map Nat.digitChar := by
    rw [DecStr.render]
    have h1 : (toDec ({ a := n.a, sign := Sign.plus } : BigInteger)).neg
        = false := rfl
    have h2 : (toDec ({ a := n.a, sign := Sign.plus } : BigInteger)).digs
        = (toDec n).digs := rfl
    rw [h1, h2]
    simp
  have hT := toDec_spec n hn.1 hn.2.1
  have hlen1 : 0 < (toDec n).digs.length := List.length_pos.mpr hT.2.2
  have hrn : (toDec n).render
      = (if (toDec n).neg = true then ['-'] else [])
        ++ (toDec n).digs.map Nat.digitChar := rfl
  have hneg : (toDec n).neg = decide (n.sign = Sign.minus) := rfl
  have hsg : (ratOfBig n).sign = n.sign := rfl
  rw [asDecimal_zero_eq, hBD, hrend]
  simp only [Nat.sub_zero, Nat.sub_self, List.replicate_zero, List.take_zero,
    List.append_nil]
  rw [List.take_length, hsg, hrn, hneg]
  cases hns : n.sign <;> simp [List.append_assoc, hT.2.2]

/-- Witness for C6 at the concrete input `n = fromInt (-12)`:
`Rational(-12).asDecimal(0)` is the character list of `"-12."`. -/
theorem asDecimal_zero_eq_toString_dot_witness :
    Canon (fromInt (-12)) ∧
      asDecimal (ratOfBig (fromInt (-12))) 0
        = (toDec (fromInt (-12))).render ++ ['.'] :=
  ⟨by decide, asDecimal_zero_eq_toString_dot (fromInt (-12)) (by decide)⟩
